import Mathlib

/-!
Verification development for the secure-llm-gateway repository.

This file shallowly embeds the pieces of the program that the verified
properties are about:

* `GuardrailResult` — the verdict record (`guardrails_lib/core.py`;
  `sentinel/core.py` is referenced by the sentinel package with the same
  constructor fields, as used by `sentinel/engine.py`),
* the four PII regex patterns and the `search`/`sub` loop of the regex PII
  stage of `GuardrailsEngine.scan` (`sentinel/engine.py`),
* the injection keyword pattern, the topic pattern, the semantic-intent
  stage (with the embedding model abstracted to a similarity capability),
  the external-hub hook and the plugin hooks of `GuardrailsEngine.scan`,
* `GuardrailsEngine._package_result` and `validate`/`validate_output`
  (`sentinel/engine.py`),
* the pipeline `GuardrailsEngine.validate` of `guardrails_lib/engine.py`
  (both for detectors that return and for detectors that raise),
* `StreamSanitizer.process`/`flush` (`sentinel/streaming.py`),
* `APIAdapter.openai_to_anthropic` (`app/core/adapters.py`).

Python regex details are modelled over the ASCII subsets of `\w`, `\s`,
`\d`: `\w` is `[A-Za-z0-9_]`, `\s` is space/tab/newline/CR/VT/FF, `\d` is
`[0-9]`.  Matching is positional and leftmost, exactly as `re.sub` /
`re.search` scan a string, with greedy/backtracking choice order encoded
per pattern.  Strings are processed as their lists of characters.
-/

/-- The verdict record, from `guardrails_lib/core.py` (`GuardrailResult`);
`sentinel/engine.py` constructs it with exactly these four keyword fields. -/
structure GuardrailResult where
  valid : Bool
  sanitized_text : String
  reason : String
  action : String
deriving Repr, DecidableEq

/-! ### Character classes (ASCII subsets of the Python classes) -/

/-- Python `\w` (ASCII part): `[A-Za-z0-9_]`. -/
def isWordChar (c : Char) : Bool :=
  c.isAlpha || c.isDigit || c = '_'

/-- Python `\s` (ASCII part). -/
def isSpaceChar (c : Char) : Bool :=
  c = ' ' || c = '\t' || c = '\n' || c = '\r' || c = '\x0b' || c = '\x0c'

/-- The class `[a-zA-Z0-9._%+-]` (local part of the EMAIL pattern). -/
def isLocalChar (c : Char) : Bool :=
  c.isAlpha || c.isDigit || c = '.' || c = '_' || c = '%' || c = '+' || c = '-'

/-- The class `[a-zA-Z0-9.-]` (domain part of the EMAIL pattern). -/
def isDomChar (c : Char) : Bool :=
  c.isAlpha || c.isDigit || c = '.' || c = '-'

/-- The class `[-.]` (PHONE separators). -/
def isPhoneSep (c : Char) : Bool :=
  c = '-' || c = '.'

/-- The class `[-\s]` (CREDIT_CARD separators, ASCII `\s`). -/
def isCcSep (c : Char) : Bool :=
  c = '-' || isSpaceChar c

/-- Word-status of the character at index `i`, `false` out of range
(Python treats positions outside the string as non-word for `\b`). -/
def wordAt (s : List Char) (i : Nat) : Bool :=
  match s.get? i with
  | some c => isWordChar c
  | none => false

/-- `n` consecutive characters of `s` starting at `i` all satisfy `p`. -/
def chkRun (p : Char → Bool) (s : List Char) (i n : Nat) : Bool :=
  (List.range n).all fun j =>
    match s.get? (i + j) with
    | some c => p c
    | none => false

/-- Length of the maximal prefix of `s` whose characters satisfy `p`. -/
def takeCount (p : Char → Bool) : List Char → Nat
  | [] => 0
  | c :: cs => if p c then takeCount p cs + 1 else 0

/-! ### The four PII patterns of `sentinel/engine.py`

```
"EMAIL":       r"[a-zA-Z0-9._%+-]+@[a-zA-Z0-9.-]+\.[a-zA-Z]{2,}"
"PHONE":       r"\b\d{3}[-.]?\d{3}[-.]?\d{4}\b"
"SSN":         r"\b\d{3}-\d{2}-\d{4}\b"
"CREDIT_CARD": r"\b(?:\d{4}[-\s]?){3}\d{4}\b"
```

Each matcher takes the word-status of the character just before the
current position (for `\b`) and the remaining characters, and returns the
length of the match attempted at this position, `none` if the pattern does
not match here.  Backtracking preference (greedy `?`, greedy `+` with the
forced-backtrack structure of each pattern) is encoded explicitly. -/

/-- Largest domain length `d ≥ 1` such that `rest.get? d = '.'` and at
least two ASCII letters follow — the parse the greedy backtracking of
`[a-zA-Z0-9.-]+\.[a-zA-Z]{2,}` selects.  The argument is the upper bound
to try first (the maximal domain-class run). -/
def emailDomSplit (rest : List Char) : Nat → Option Nat
  | 0 => none
  | d + 1 =>
    if rest.get? (d + 1) = some '.'
        && (rest.get? (d + 2)).any Char.isAlpha
        && (rest.get? (d + 3)).any Char.isAlpha then
      some (d + 1)
    else
      emailDomSplit rest d

/-- EMAIL matcher (no `\b` in this pattern, so the previous-character
word-status is ignored).  Greedy `+` on the local part needs no
backtracking because `@` is not a local-class character; the domain part
backtracks from the longest domain-class run. -/
def emailMatchAt (_prevW : Bool) (s : List Char) : Option Nat :=
  let loc := takeCount isLocalChar s
  if loc = 0 then none
  else if s.get? loc = some '@' then
    let rest := s.drop (loc + 1)
    match emailDomSplit rest (takeCount isDomChar rest) with
    | some d => some (loc + 1 + d + 1 + takeCount Char.isAlpha (rest.drop (d + 1)))
    | none => none
  else none

/-- Helper: optional single separator at index `i`; returns the indices
after consuming it (present first — greedy `?`) and not consuming it. -/
def sepChoices (p : Char → Bool) (s : List Char) (i : Nat) : List Nat :=
  match s.get? i with
  | some c => if p c then [i + 1, i] else [i]
  | none => [i]

/-- PHONE matcher: `\b\d{3}[-.]?\d{3}[-.]?\d{4}\b`. -/
def phoneMatchAt (prevW : Bool) (s : List Char) : Option Nat :=
  if prevW then none
  else if chkRun Char.isDigit s 0 3 then
    ((sepChoices isPhoneSep s 3).flatMap fun i =>
      if chkRun Char.isDigit s i 3 then
        (sepChoices isPhoneSep s (i + 3)).filterMap fun j =>
          if chkRun Char.isDigit s j 4 && !wordAt s (j + 4) then
            some (j + 4)
          else none
      else []).head?
  else none

/-- SSN matcher: `\b\d{3}-\d{2}-\d{4}\b`. -/
def ssnMatchAt (prevW : Bool) (s : List Char) : Option Nat :=
  if prevW then none
  else if chkRun Char.isDigit s 0 3 && s.get? 3 = some '-'
      && chkRun Char.isDigit s 4 2 && s.get? 6 = some '-'
      && chkRun Char.isDigit s 7 4 && !wordAt s 11 then
    some 11
  else none

/-- CREDIT_CARD matcher: `\b(?:\d{4}[-\s]?){3}\d{4}\b`. -/
def ccMatchAt (prevW : Bool) (s : List Char) : Option Nat :=
  if prevW then none
  else if chkRun Char.isDigit s 0 4 then
    ((sepChoices isCcSep s 4).flatMap fun i =>
      if chkRun Char.isDigit s i 4 then
        (sepChoices isCcSep s (i + 4)).flatMap fun j =>
          if chkRun Char.isDigit s j 4 then
            (sepChoices isCcSep s (j + 4)).filterMap fun k =>
              if chkRun Char.isDigit s k 4 && !wordAt s (k + 4) then
                some (k + 4)
              else none
          else []
      else []).head?
  else none

/-! ### The scan/substitute loop of `re.sub` (as used by the PII stage) -/

/-- Leftmost scan with substitution: at each position try the matcher; on
a match of length `ℓ ≥ 1` emit the replacement token and resume after the
match (the `\b` context of the resumed scan is the word-status of the last
character of the match *in the original string*, exactly as `re.sub`
scans the original).  Returns the rewritten list and whether any match was
found.  `fuel` bounds the recursion; callers pass the string length. -/
def scanSub (m : Bool → List Char → Option Nat) (token : List Char) :
    Nat → Bool → List Char → List Char × Bool
  | 0, _, s => (s, false)
  | _ + 1, _, [] => ([], false)
  | fuel + 1, prevW, c :: cs =>
    match m prevW (c :: cs) with
    | some (ℓ + 1) =>
      let rest := (c :: cs).drop (ℓ + 1)
      let lastW := wordAt (c :: cs) ℓ
      let r := scanSub m token fuel lastW rest
      (token ++ r.1, true)
    | _ =>
      let r := scanSub m token fuel (isWordChar c) cs
      (c :: r.1, r.2)

/-! ### The PII stage of `GuardrailsEngine.scan` (regex path)

```
for name, pattern in self.pii_patterns:
    if pattern.search(sanitized_prompt):
        msg = f"<{name}_REDACTED>"
        sanitized_prompt = pattern.sub(msg, sanitized_prompt)
        triggered.append(f"PII:{name}")
```
`self.pii_patterns` holds the configured pattern kinds in the order of the
profile's `patterns` list (`enabled_keys`). -/

inductive PiiKind
  | EMAIL
  | PHONE
  | SSN
  | CREDIT_CARD
deriving Repr, DecidableEq

def PiiKind.pname : PiiKind → String
  | .EMAIL => "EMAIL"
  | .PHONE => "PHONE"
  | .SSN => "SSN"
  | .CREDIT_CARD => "CREDIT_CARD"

def PiiKind.matcher : PiiKind → Bool → List Char → Option Nat
  | .EMAIL => emailMatchAt
  | .PHONE => phoneMatchAt
  | .SSN => ssnMatchAt
  | .CREDIT_CARD => ccMatchAt

def PiiKind.token (k : PiiKind) : String :=
  "<" ++ k.pname ++ "_REDACTED>"

/-- One `if pattern.search: pattern.sub` step. -/
def subPattern (k : PiiKind) (s : String) : String × Bool :=
  let r := scanSub k.matcher k.token.data s.data.length false s.data
  (String.mk r.1, r.2)

/-- One iteration of the PII loop. -/
def piiStep (acc : String × List String) (k : PiiKind) : String × List String :=
  let r := subPattern k acc.1
  if r.2 then (r.1, acc.2 ++ ["PII:" ++ k.pname]) else acc

/-- The whole PII loop: rewritten text and the `PII:<KIND>` triggers. -/
def piiStage (pats : List PiiKind) (s : String) : String × List String :=
  pats.foldl piiStep (s, [])

/-! ### Keyword matching (`\b(kw1|kw2|...)\b`, `re.IGNORECASE`)

Used by the injection pattern and the topic pattern of
`sentinel/engine.py`. -/

/-- Case-insensitive prefix comparison (pattern characters vs text). -/
def ciPrefix : List Char → List Char → Bool
  | [], _ => true
  | _ :: _, [] => false
  | k :: ks, c :: cs => (k.toLower = c.toLower) && ciPrefix ks cs

/-- One alternative of `\b(...)\b` matching at the current position:
leading word boundary, case-insensitive literal, trailing word boundary.
The empty alternative never occurs in the configurations modelled. -/
def kwAt (kw : List Char) (prevW : Bool) (s : List Char) : Bool :=
  match kw, s with
  | [], _ => false
  | _ :: _, [] => false
  | _ :: _, c0 :: _ =>
    (prevW != isWordChar c0) && ciPrefix kw s &&
      (isWordChar (s.getD (kw.length - 1) ' ') != wordAt s kw.length)

/-- `pattern.search` for the keyword pattern: some alternative matches at
some position. -/
def kwSearch (kws : List String) : Nat → Bool → List Char → Bool
  | 0, _, _ => false
  | _ + 1, _, [] => false
  | fuel + 1, prevW, c :: cs =>
    (kws.any fun kw => kwAt kw.data prevW (c :: cs)) ||
      kwSearch kws fuel (isWordChar c) cs

/-- `pattern.findall` for the topic pattern: leftmost non-overlapping
matches, alternatives tried in `block_list` order, capture is the text as
matched. -/
def topicFindAux (bl : List String) : Nat → Bool → List Char → List String
  | 0, _, _ => []
  | _ + 1, _, [] => []
  | fuel + 1, prevW, c :: cs =>
    match bl.find? (fun kw => kwAt kw.data prevW (c :: cs)) with
    | some kw =>
      let n := kw.data.length
      String.mk ((c :: cs).take n) ::
        topicFindAux bl fuel (wordAt (c :: cs) (n - 1)) ((c :: cs).drop n)
    | none => topicFindAux bl fuel (isWordChar c) cs

/-- Insertion into a list sorted by the string order (Python `sorted`). -/
def insertSorted (x : String) : List String → List String
  | [] => [x]
  | y :: ys => if x < y then x :: y :: ys else y :: insertSorted x ys

def sortStrings (l : List String) : List String :=
  l.foldr insertSorted []

/-- `sorted(list(set(pattern.findall(text))))` of the topic stage. -/
def topicMatches (bl : List String) (s : String) : List String :=
  sortStrings (topicFindAux bl s.data.length false s.data).eraseDups

/-! ### The semantic stage (embedding model abstracted to a similarity
capability `sim : text → intent → ℚ`, the composite of `encode` and
`cosine_similarity`) -/

/-- `numpy.argmax` + value: first index attaining the maximum. -/
def argmaxAux : List ℚ → Nat → Nat × ℚ → Nat × ℚ
  | [], _, best => best
  | v :: vs, i, best => argmaxAux vs (i + 1) (if v > best.2 then (i, v) else best)

def argmaxFirst : List ℚ → Nat × ℚ
  | [] => (0, 0)
  | x :: xs => argmaxAux xs 1 (0, x)

def pad2 (n : Nat) : String :=
  if n < 10 then "0" ++ toString n else toString n

/-- Python's `f"{x:.2f}"` on the abstracted score: two decimal digits,
round half to even. -/
def fmt2 (q : ℚ) : String :=
  let a : ℚ := |q| * 100
  let fl : ℤ := ⌊a⌋
  let fr : ℚ := a - fl
  let n : ℤ :=
    if fr > 1 / 2 then fl + 1
    else if fr < 1 / 2 then fl
    else if 2 ∣ fl then fl else fl + 1
  (if q < 0 then "-" else "") ++ toString (n / 100).toNat ++ "." ++ pad2 (n % 100).toNat

def semanticReason (intent : String) (score : ℚ) : String :=
  "Semantic:Intent violation (matched '" ++ intent ++ "', score " ++ fmt2 score ++ ")"

structure SemanticCfg where
  intents : List String
  sim : String → String → ℚ
  threshold : ℚ

/-- Step 4 of `scan`: scores, first-max, strict-threshold trigger. -/
def semStage (sc : SemanticCfg) (s : String) : List String × ℚ :=
  if sc.intents.isEmpty then ([], 0)
  else
    let scores := sc.intents.map fun it => sc.sim s it
    let best := argmaxFirst scores
    (if best.2 > sc.threshold then
        [semanticReason (sc.intents.getD best.1 "") best.2]
      else [], best.2)

/-! ### `GuardrailsEngine` configuration, `scan` and `_package_result` -/

inductive Source
  | input
  | output
deriving Repr, DecidableEq

/-- The engine state relevant to `scan`, as assembled by
`GuardrailsEngine.__init__` from the profile: the compiled PII patterns
(regex path, in profile order; empty when PII is disabled), the merged
injection keyword list (empty when the injection pattern is not
compiled), the topic block list (empty when no topic pattern is
compiled), the semantic configuration (`none` when the model or the
intent embeddings are absent), the external-hub validator (`none` when
disabled) and the plugin scanners. -/
structure EngineConfig where
  pii : List PiiKind
  injection : List String
  topics : List String
  semantic : Option SemanticCfg
  externalHub : Option (String → Option String)
  plugins : List (String → Option String)
  shadow_mode : Bool

structure ScanResult where
  sanitized_prompt : String
  triggered_rules : List String
  semantic_score : ℚ

/-- Step 2 of `scan`: injection/leakage (input only). -/
def injTrig (cfg : EngineConfig) (source : Source) (s : String) : List String :=
  if source = Source.input && !cfg.injection.isEmpty &&
      kwSearch cfg.injection s.data.length false s.data then
    ["Injection:System Prompt Override"]
  else []

/-- Step 3 of `scan`: keyword blocking (topics). -/
def topicTrig (cfg : EngineConfig) (s : String) : List String :=
  if cfg.topics.isEmpty then []
  else
    let ms := topicMatches cfg.topics s
    if ms.isEmpty then [] else ["Topic:" ++ String.intercalate "," ms]

/-- Step 4 of `scan`: semantic blocking (input only); also yields the
`semantic_score`. -/
def semTrigPair (cfg : EngineConfig) (source : Source) (s : String) :
    List String × ℚ :=
  match cfg.semantic with
  | some sc => if source = Source.input then semStage sc s else ([], 0)
  | none => ([], 0)

/-- Step 5 of `scan`: the external hub (input only). -/
def extTrig (cfg : EngineConfig) (source : Source) (s : String) : List String :=
  match cfg.externalHub with
  | some ext =>
    if source = Source.input then
      match ext s with
      | some e => ["External: " ++ e]
      | none => []
    else []
  | none => []

/-- Step 6 of `scan`: plugins (both sources). -/
def pluginTrig (cfg : EngineConfig) (s : String) : List String :=
  cfg.plugins.filterMap fun pl => (pl s).map fun e => "Plugin:" ++ e

/-- `GuardrailsEngine.scan` (synchronous pipeline), steps 1–6 in source
order.  Only the PII step rewrites the text; each later step appends its
triggers to the running list. -/
def scan (cfg : EngineConfig) (source : Source) (prompt : String) : ScanResult :=
  let p1 := piiStage cfg.pii prompt
  let sem := semTrigPair cfg source p1.1
  ⟨p1.1,
   ((((p1.2 ++ injTrig cfg source p1.1) ++ topicTrig cfg p1.1)
      ++ sem.1) ++ extTrig cfg source p1.1) ++ pluginTrig cfg p1.1,
   sem.2⟩

/-- Python's `str.startswith`, structurally on the character lists. -/
def pyStartsWith (s pre : String) : Bool :=
  pre.data.isPrefixOf s.data

/-- Python's `", ".join`. -/
def joinComma : List String → String
  | [] => ""
  | [x] => x
  | x :: y :: ys => x ++ ", " ++ joinComma (y :: ys)

/-- `GuardrailsEngine._package_result`. -/
def packageResult (shadow : Bool) (r : ScanResult) : GuardrailResult :=
  if r.triggered_rules.isEmpty then
    ⟨true, r.sanitized_prompt, "", "allowed"⟩
  else if r.triggered_rules.all (fun t => pyStartsWith t "PII:") then
    ⟨true, r.sanitized_prompt, "PII Redacted", "redacted"⟩
  else if shadow then
    ⟨true, r.sanitized_prompt, joinComma r.triggered_rules, "shadow_block"⟩
  else
    ⟨false, r.sanitized_prompt, joinComma r.triggered_rules, "blocked"⟩

/-- `GuardrailsEngine.validate` (input side; the audit emission does not
affect the returned verdict). -/
def validate (cfg : EngineConfig) (text : String) : GuardrailResult :=
  packageResult cfg.shadow_mode (scan cfg .input text)

/-- `GuardrailsEngine.validate_output`. -/
def validate_output (cfg : EngineConfig) (text : String) : GuardrailResult :=
  packageResult cfg.shadow_mode (scan cfg .output text)

/-! ### `guardrails_lib/engine.py`: `GuardrailsEngine.validate`

```
for guardrail in self.guardrails:
    result = guardrail.validate(current_text)
    if not result.valid:
        return result
    current_text = result.sanitized_text
return GuardrailResult(valid=True, sanitized_text=current_text,
                       reason="Passed all guardrails", action="allowed")
```
A detector is its `validate` function.  `glRunAux` additionally counts how
many detectors were invoked (the instrumentation the property talks
about). -/

def Guardrail : Type := String → GuardrailResult

def glRunAux : List Guardrail → String → GuardrailResult × Nat
  | [], t => (⟨true, t, "Passed all guardrails", "allowed"⟩, 0)
  | g :: gs, t =>
    let r := g t
    if r.valid then
      let rec' := glRunAux gs r.sanitized_text
      (rec'.1, rec'.2 + 1)
    else (r, 1)

/-- The verdict `validate` returns. -/
def glValidate (gs : List Guardrail) (t : String) : GuardrailResult :=
  (glRunAux gs t).1

/-- How many detectors `validate` invoked. -/
def glInvoked (gs : List Guardrail) (t : String) : Nat :=
  (glRunAux gs t).2

/-- The accumulated text after a list of detectors, assuming all pass
(each one is fed the previous `sanitized_text`). -/
def glCurrent : List Guardrail → String → String
  | [], t => t
  | g :: gs, t => glCurrent gs (g t).sanitized_text

/-- The same loop when detectors may raise: the body has no
`try`/`except`, so an exception propagates out of `validate`.  A raising
detector is a function into `Except`. -/
def GuardrailE : Type := String → Except String GuardrailResult

def glRunExcAux : List GuardrailE → String → Except String GuardrailResult × Nat
  | [], t => (.ok ⟨true, t, "Passed all guardrails", "allowed"⟩, 0)
  | g :: gs, t =>
    match g t with
    | .error e => (.error e, 1)
    | .ok r =>
      if r.valid then
        let rec' := glRunExcAux gs r.sanitized_text
        (rec'.1, rec'.2 + 1)
      else (.ok r, 1)

def glValidateExc (gs : List GuardrailE) (t : String) : Except String GuardrailResult :=
  (glRunExcAux gs t).1

def glInvokedExc (gs : List GuardrailE) (t : String) : Nat :=
  (glRunExcAux gs t).2

/-! ### `sentinel/streaming.py`: `StreamSanitizer`

`SENTENCE_END = re.compile(r'(.*?[.?!])(\s+|$)', re.DOTALL)` matched
against the buffer: the lazy group stops at the first `.?!` that is
followed by whitespace or the end of the buffer; the separator is the
greedy whitespace run (empty when the punctuation ends the buffer). -/

def isPunct (c : Char) : Bool :=
  c = '.' || c = '?' || c = '!'

/-- `SENTENCE_END.match(buffer)`: sentence (with punctuation), separator,
rest of the buffer. -/
def extractOne : List Char → Option (List Char × List Char × List Char)
  | [] => none
  | c :: cs =>
    if isPunct c then
      match cs with
      | [] => some ([c], [], [])
      | d :: _ =>
        if isSpaceChar d then
          let sep := cs.takeWhile isSpaceChar
          some ([c], sep, cs.drop sep.length)
        else
          match extractOne cs with
          | some (sen, sep, rest) => some (c :: sen, sep, rest)
          | none => none
    else
      match extractOne cs with
      | some (sen, sep, rest) => some (c :: sen, sep, rest)
      | none => none

/-- What `process` yields for one extracted sentence. -/
def sanitizeEmit (e : String → GuardrailResult) (sentence sep : String) : String :=
  let r := e sentence
  if r.valid || r.action == "redacted" then r.sanitized_text ++ sep
  else "[BLOCKED: " ++ r.reason ++ "]" ++ sep

/-- The `while True` loop of `process`: drain all leading sentences. -/
def drainBuf (e : String → GuardrailResult) : Nat → List Char → List String × List Char
  | 0, b => ([], b)
  | fuel + 1, b =>
    match extractOne b with
    | none => ([], b)
    | some (sen, sep, rest) =>
      let r := drainBuf e fuel rest
      (sanitizeEmit e (String.mk sen) (String.mk sep) :: r.1, r.2)

/-- `process(chunk)` on a sanitizer whose buffer is `buf`: emitted
strings and the new buffer. -/
def processChunk (e : String → GuardrailResult) (buf chunk : String) :
    List String × String :=
  let b := (buf ++ chunk).data
  let r := drainBuf e b.length b
  (r.1, String.mk r.2)

/-- `flush()`: validate the remaining buffer as one final sentence. -/
def flushBuf (e : String → GuardrailResult) (buf : String) : List String :=
  if buf = "" then []
  else
    let r := e buf
    if r.valid || r.action == "redacted" then [r.sanitized_text]
    else ["[BLOCKED: " ++ r.reason ++ "]"]

/-- Concatenation of a list of yielded strings, as the caller of the
generator sees it. -/
def strConcat : List String → String
  | [] => ""
  | x :: xs => x ++ strConcat xs

/-- One `process` call from the fold's point of view. -/
def streamStep (e : String → GuardrailResult) (acc : String × String)
    (chunk : String) : String × String :=
  let r := processChunk e acc.2 chunk
  (acc.1 ++ strConcat r.1, r.2)

/-- Feed all chunks through `process`, then `flush`; return the
concatenation of everything yielded. -/
def runStream (e : String → GuardrailResult) (chunks : List String) : String :=
  let step := chunks.foldl (streamStep e) ("", "")
  step.1 ++ strConcat (flushBuf e step.2)

/-! ### `app/core/adapters.py`: `APIAdapter.openai_to_anthropic` -/

structure ChatMsg where
  role : String
  content : String
deriving Repr, DecidableEq

/-- The fields of the canonical OpenAI-style request that
`openai_to_anthropic` reads (`request_data.get(...)`). -/
structure OAIRequest where
  model : Option String
  messages : List ChatMsg
  max_tokens : Option Nat
deriving Repr, DecidableEq

/-- The upstream body built by `openai_to_anthropic`. -/
structure AnthropicPayload where
  model : Option String
  messages : List ChatMsg
  max_tokens : Nat
  system : Option String
deriving Repr, DecidableEq

/-- `APIAdapter.openai_to_anthropic`: the loop keeps non-system messages
in order and overwrites `system_prompt` at each system message; the
`system` key is only set when the final `system_prompt` is truthy
(non-`None` and non-empty). -/
def openai_to_anthropic (req : OAIRequest) : AnthropicPayload :=
  let step := req.messages.foldl
    (fun (acc : Option String × List ChatMsg) msg =>
      if msg.role = "system" then (some msg.content, acc.2)
      else (acc.1, acc.2 ++ [msg]))
    (none, [])
  { model := req.model
    messages := step.2
    max_tokens := req.max_tokens.getD 1024
    system := match step.1 with
      | some s => if s = "" then none else some s
      | none => none }

/-! ## Claim C1: short-circuit correctness of the pipeline -/

/-- Helpers used in the C1/C6 witnesses: a sanitizing pass detector, a
blocking detector, a detector that must never run, a raising detector. -/
def gwPass : Guardrail := fun s => ⟨true, s ++ "!", "ok", "allowed"⟩

def gwBlock : Guardrail := fun s => ⟨false, s, "blocked:" ++ s, "blocked"⟩

def gwAfter : Guardrail := fun s => ⟨true, s, "", "allowed"⟩

/-- C1: if every detector before `g` passes and `g` blocks the accumulated
text, `validate` returns exactly `g`'s verdict and invokes exactly the
detectors up to and including `g` — none after it. -/
theorem c1_short_circuit (pre post : List Guardrail) (g : Guardrail) (t : String)
    (hpre : (glValidate pre t).valid = true)
    (hg : (g (glCurrent pre t)).valid = false) :
    glValidate (pre ++ g :: post) t = g (glCurrent pre t) ∧
    glInvoked (pre ++ g :: post) t = pre.length + 1 := by
  induction pre generalizing t with
  | nil =>
    simp only [glCurrent] at hg
    simp [glValidate, glInvoked, glRunAux, glCurrent, hg]
  | cons p ps ih =>
    by_cases h : (p t).valid
    · have hpre' : (glValidate ps (p t).sanitized_text).valid = true := by
        simpa [glValidate, glRunAux, h] using hpre
      have hg' : (g (glCurrent ps (p t).sanitized_text)).valid = false := by
        simpa [glCurrent] using hg
      obtain ⟨ih1, ih2⟩ := ih (p t).sanitized_text hpre' hg'
      constructor
      · simpa [glValidate, glRunAux, h] using ih1
      · simp only [glInvoked, glRunAux, h, if_true, List.cons_append, List.append_eq, List.length_cons]
        simp only [glInvoked, List.append_eq] at ih2
        omega
    · exfalso
      simp [glValidate, glRunAux, h] at hpre

/-- Witness for C1 at a concrete three-detector pipeline. -/
theorem c1_witness :
    glValidate ([gwPass] ++ gwBlock :: [gwAfter]) "x" = gwBlock (glCurrent [gwPass] "x") ∧
    glInvoked ([gwPass] ++ gwBlock :: [gwAfter]) "x" = 2 :=
  c1_short_circuit [gwPass] [gwAfter] gwBlock "x" rfl rfl

/-! ## Claim C6: a raising detector is not fail-open -/

def geRaise : GuardrailE := fun _ => .error "boom"

def geBlock : GuardrailE := fun s => .ok ⟨false, s, "blocked", "blocked"⟩

def gePass : GuardrailE := fun s => .ok ⟨true, s, "ok", "allowed"⟩

/-- All detectors in the list return and pass. -/
def glPassesExc : List GuardrailE → String → Prop
  | [], _ => True
  | g :: gs, t =>
    match g t with
    | .ok r => r.valid = true ∧ glPassesExc gs r.sanitized_text
    | .error _ => False

/-- Accumulated text along an all-passing prefix. -/
def glCurrentExc : List GuardrailE → String → String
  | [], t => t
  | g :: gs, t =>
    match g t with
    | .ok r => glCurrentExc gs r.sanitized_text
    | .error _ => t

/-- C6 counterexample: the claim is false on the code — a detector that raises makes the
pipeline's `validate` raise (the loop has no `try`/`except`), and the
detector after it — here a blocking one — is never invoked, so its block
decision is lost. -/
theorem c6_counterexample :
    glValidateExc [geRaise, geBlock] "hi" = .error "boom" ∧
    glInvokedExc [geRaise, geBlock] "hi" = 1 := by
  constructor <;> rfl

/-- C6 (amended): after an all-passing prefix, a raising detector
propagates its exception out of `validate` and no later detector runs. -/
theorem c6_amended (pre post : List GuardrailE) (f : GuardrailE) (e t : String)
    (hpre : glPassesExc pre t)
    (hf : f (glCurrentExc pre t) = .error e) :
    glValidateExc (pre ++ f :: post) t = .error e ∧
    glInvokedExc (pre ++ f :: post) t = pre.length + 1 := by
  induction pre generalizing t with
  | nil =>
    simp only [glCurrentExc] at hf
    simp [glValidateExc, glInvokedExc, glRunExcAux, hf]
  | cons p ps ih =>
    match hp : p t with
    | .error e' => simp [glPassesExc, hp] at hpre
    | .ok r =>
      simp only [glPassesExc, hp] at hpre
      simp only [glCurrentExc, hp] at hf
      obtain ⟨ih1, ih2⟩ := ih r.sanitized_text hpre.2 hf
      constructor
      · simpa [glValidateExc, glRunExcAux, hp, hpre.1] using ih1
      · simp only [glInvokedExc, glRunExcAux, hp, hpre.1, if_true, List.cons_append, List.append_eq, List.length_cons]
        simp only [glInvokedExc, List.append_eq] at ih2
        omega

/-- Witness for the amended C6 at a concrete pipeline. -/
theorem c6_witness :
    glValidateExc ([gePass] ++ geRaise :: [geBlock]) "x" = .error "boom" ∧
    glInvokedExc ([gePass] ++ geRaise :: [geBlock]) "x" = 2 :=
  c6_amended [gePass] [geBlock] geRaise "boom" "x" ⟨rfl, trivial⟩ rfl

/-! ## Claim C7: OpenAI → Anthropic request adaptation -/

/-- The content of the last system message — the adapter's loop
overwrites `system_prompt` at every system message it sees. -/
def lastSystem (msgs : List ChatMsg) : Option String :=
  msgs.foldl (fun a m => if m.role = "system" then some m.content else a) none

lemma anth_foldAux (msgs : List ChatMsg) (a : Option String) (l : List ChatMsg) :
    msgs.foldl
      (fun (acc : Option String × List ChatMsg) msg =>
        if msg.role = "system" then (some msg.content, acc.2)
        else (acc.1, acc.2 ++ [msg])) (a, l)
    = (msgs.foldl (fun a' m => if m.role = "system" then some m.content else a') a,
       l ++ msgs.filter (fun m => !(m.role == "system"))) := by
  induction msgs generalizing a l with
  | nil => simp
  | cons m ms ih =>
    by_cases h : m.role = "system"
    · simp [h, List.filter_cons, ih]
    · simp only [List.foldl_cons, if_neg h, List.filter_cons]
      have : (!(m.role == "system")) = true := by
        simpa using h
      rw [ih, this]
      simp

/-- With two system messages the claim fails: the payload's `system`
field holds the content of the *last* system message, not the first. -/
def c7req : OAIRequest :=
  { model := some "m"
    messages := [⟨"system", "A"⟩, ⟨"system", "B"⟩, ⟨"user", "U"⟩]
    max_tokens := none }

/-- C7 counterexample: the claim is false on the code — with two system
messages, the *first* one should populate the `system` field, but the
adapter's loop overwrites `system_prompt` and keeps the *last* one. -/
theorem c7_counterexample :
    c7req.messages.find? (fun m => m.role == "system") = some ⟨"system", "A"⟩ ∧
    (openai_to_anthropic c7req).system = some "B" ∧
    (some "B" : Option String) ≠ some "A" :=
  ⟨rfl, rfl, by decide⟩

/-- C7 (amended): the `system` field carries the *last*
system message's content (omitted when that content is empty), all
system messages are removed with the rest kept in order, `max_tokens`
defaults to 1024, and the spec's concrete haiku example maps as stated
(it has a single, non-empty system message). -/
theorem c7_amended :
    (∀ req : OAIRequest,
      (openai_to_anthropic req).model = req.model ∧
      (openai_to_anthropic req).messages
        = req.messages.filter (fun m => !(m.role == "system")) ∧
      (openai_to_anthropic req).max_tokens = req.max_tokens.getD 1024 ∧
      (openai_to_anthropic req).system
        = (match lastSystem req.messages with
           | some s => if s = "" then none else some s
           | none => none)) ∧
    openai_to_anthropic ⟨some "claude-3-haiku", [⟨"system", "S"⟩, ⟨"user", "U"⟩], none⟩
      = ⟨some "claude-3-haiku", [⟨"user", "U"⟩], 1024, some "S"⟩ := by
  constructor
  · intro req
    refine ⟨rfl, ?_, rfl, ?_⟩
    · simp [openai_to_anthropic, anth_foldAux]
    · simp [openai_to_anthropic, anth_foldAux, lastSystem]
  · rfl

/-! ## Claim C3: shadow-mode equivalence -/

/-- `scan` never reads `shadow_mode`. -/
lemma scan_shadow_irrel (cfg : EngineConfig) (b : Bool) (src : Source) (t : String) :
    scan { cfg with shadow_mode := b } src t = scan cfg src t := rfl

/-- `_package_result` with shadow on is always valid. -/
lemma packageResult_valid_shadow (r : ScanResult) :
    (packageResult true r).valid = true := by
  unfold packageResult
  split
  · rfl
  · split
    · rfl
    · rfl

/-- `_package_result` computes `reason` before the shadow branch, which
does not change it. -/
lemma packageResult_reason_shadow (r : ScanResult) :
    (packageResult true r).reason = (packageResult false r).reason := by
  unfold packageResult
  split
  · rfl
  · split
    · rfl
    · rfl

/-- C3: for every configuration and text, the shadow engine returns
`valid = true`, and its `reason` equals the non-shadow engine's
`reason` on the same text. -/
theorem c3_shadow_equivalence (cfg : EngineConfig) (text : String) :
    (validate { cfg with shadow_mode := true } text).valid = true ∧
    (validate { cfg with shadow_mode := true } text).reason
      = (validate { cfg with shadow_mode := false } text).reason :=
  ⟨packageResult_valid_shadow (scan cfg Source.input text),
   packageResult_reason_shadow (scan cfg Source.input text)⟩

/-! ## Claims C10 and C2: sanitized text of the engine verdict -/

/-- Every branch of `_package_result` returns the scan's
`sanitized_prompt` unchanged. -/
lemma packageResult_sanitized (sh : Bool) (r : ScanResult) :
    (packageResult sh r).sanitized_text = r.sanitized_prompt := by
  unfold packageResult
  split
  · rfl
  · split
    · rfl
    · split
      · rfl
      · rfl

/-- The PII loop only ever appends triggers. -/
lemma piiFold_mono (pats : List PiiKind) (st : String × List String) :
    ∃ l, (List.foldl piiStep st pats).2 = st.2 ++ l := by
  induction pats generalizing st with
  | nil => exact ⟨[], by simp⟩
  | cons k ps ih =>
    by_cases h : (subPattern k st.1).2
    · obtain ⟨l, hl⟩ := ih ((subPattern k st.1).1, st.2 ++ ["PII:" ++ k.pname])
      refine ⟨("PII:" ++ k.pname) :: l, ?_⟩
      simp only [List.foldl_cons, piiStep, h, if_true]
      simpa using hl
    · obtain ⟨l, hl⟩ := ih st
      refine ⟨l, ?_⟩
      simpa only [List.foldl_cons, piiStep, h, if_false] using hl

/-- If the PII loop triggered nothing, it rewrote nothing. -/
lemma piiFold_id (pats : List PiiKind) (st : String × List String)
    (h : (List.foldl piiStep st pats).2 = st.2) :
    (List.foldl piiStep st pats).1 = st.1 := by
  induction pats generalizing st with
  | nil => rfl
  | cons k ps ih =>
    by_cases hk : (subPattern k st.1).2
    · exfalso
      obtain ⟨l, hl⟩ := piiFold_mono ps ((subPattern k st.1).1, st.2 ++ ["PII:" ++ k.pname])
      simp only [List.foldl_cons, piiStep, hk, if_true] at h
      rw [hl] at h
      have := congrArg List.length h
      simp at this
    · simp only [List.foldl_cons, piiStep, hk, if_false] at h ⊢
      exact ih st h

/-- Configuration used to exhibit C10's behavior concretely. -/
def c10cfg : EngineConfig :=
  { pii := [.EMAIL], injection := [], topics := [], semantic := none,
    externalHub := none, plugins := [], shadow_mode := false }

/-- C10: shadow mode never suppresses PII redaction — in shadow mode the
verdict's `sanitized_text` is always the PII-stage output (also when a
block was converted to `shadow_block`), and when only `PII:` rules
triggered the verdict is `redacted`/valid/"PII Redacted" for either
shadow setting. -/
theorem c10_shadow_preserves_redaction (cfg : EngineConfig) (text : String) :
    (validate { cfg with shadow_mode := true } text).sanitized_text
      = (piiStage cfg.pii text).1 ∧
    (∀ sh : Bool,
      (scan cfg Source.input text).triggered_rules ≠ [] →
      ((scan cfg Source.input text).triggered_rules.all
        (fun t => pyStartsWith t "PII:")) = true →
      validate { cfg with shadow_mode := sh } text
        = ⟨true, (piiStage cfg.pii text).1, "PII Redacted", "redacted"⟩) := by
  constructor
  · exact packageResult_sanitized true (scan cfg Source.input text)
  · intro sh h1 h2
    show packageResult sh (scan cfg Source.input text)
      = ⟨true, (piiStage cfg.pii text).1, "PII Redacted", "redacted"⟩
    have hne : (scan cfg Source.input text).triggered_rules.isEmpty = false := by
      cases hx : (scan cfg Source.input text).triggered_rules with
      | nil => exact absurd hx h1
      | cons a l => rfl
    unfold packageResult
    rw [hne, h2]
    rfl

/-- Witness for C10 at a concrete configuration and input. -/
theorem c10_witness :
    validate { c10cfg with shadow_mode := true } "a@b.co"
      = ⟨true, "<EMAIL_REDACTED>", "PII Redacted", "redacted"⟩ :=
  (c10_shadow_preserves_redaction c10cfg "a@b.co").2 true (by decide) (by decide)

/-! ## Claim C2: blocked verdicts and rewriting -/

/-- The default injection keyword list compiled by
`GuardrailsEngine.__init__` (no custom keywords). -/
def defaultInjection : List String :=
  ["ignore previous instructions", "ignore all instructions",
   "system override", "dan mode", "do anything now", "unfiltered",
   "jailbreak", "developer mode", "system prompt", "original instructions"]

def c2cfg : EngineConfig :=
  { pii := [.EMAIL], injection := defaultInjection, topics := [],
    semantic := none, externalHub := none, plugins := [], shadow_mode := false }

/-- C2 counterexample: the claim is false on the code — the PII stage runs *first*, so a
blocked input can come back partially rewritten.  Here the input both
contains an email (redacted) and an injection keyword (blocked), and the
blocked verdict's `sanitized_text` differs from the input. -/
theorem c2_counterexample :
    (validate c2cfg "jailbreak a@b.co").action = "blocked" ∧
    (validate c2cfg "jailbreak a@b.co").sanitized_text
      = "jailbreak <EMAIL_REDACTED>" ∧
    (validate c2cfg "jailbreak a@b.co").sanitized_text ≠ "jailbreak a@b.co" := by
  refine ⟨rfl, rfl, by decide⟩

/-- C2 (amended): a blocked verdict's `sanitized_text` is the text
as of the end of the PII stage (which runs before every blocking stage);
it equals the original input exactly when no PII rule fired. -/
theorem c2_amended (cfg : EngineConfig) (text : String)
    (_hsh : cfg.shadow_mode = false)
    (_hb : (validate cfg text).action = "blocked") :
    (validate cfg text).sanitized_text = (piiStage cfg.pii text).1 ∧
    ((piiStage cfg.pii text).2 = [] →
      (validate cfg text).sanitized_text = text) := by
  constructor
  · exact packageResult_sanitized cfg.shadow_mode (scan cfg Source.input text)
  · intro h0
    have h1 : (validate cfg text).sanitized_text = (piiStage cfg.pii text).1 :=
      packageResult_sanitized cfg.shadow_mode (scan cfg Source.input text)
    rw [h1]
    exact piiFold_id cfg.pii (text, []) h0

def c2wcfg : EngineConfig :=
  { pii := [.EMAIL], injection := [], topics := ["secret"],
    semantic := none, externalHub := none, plugins := [], shadow_mode := false }

/-- Witness for the amended C2 at a concrete configuration and input. -/
theorem c2_witness :
    (validate c2wcfg "a secret").sanitized_text = (piiStage c2wcfg.pii "a secret").1 ∧
    ((piiStage c2wcfg.pii "a secret").2 = [] →
      (validate c2wcfg "a secret").sanitized_text = "a secret") :=
  c2_amended c2wcfg "a secret" rfl (by decide)

/-! ## Claim C4: verdict invariants

The substantial part is `action = "redacted" → sanitized_text ≠ input`:
a fired PII substitution strictly increases the number of `'<'`
characters, because no pattern can consume a `'<'` while every
replacement token contributes one. -/

lemma takeCount_prop (p : Char → Bool) (s : List Char) :
    ∀ i, i < takeCount p s → ∃ c, s.get? i = some c ∧ p c := by
  induction s with
  | nil => intro i h; simp [takeCount] at h
  | cons c cs ih =>
    intro i h
    by_cases hc : p c
    · cases i with
      | zero => exact ⟨c, rfl, hc⟩
      | succ j =>
        simp only [takeCount, hc, if_true] at h
        exact ih j (by omega)
    · simp [takeCount, hc] at h

lemma chkRun_prop {p : Char → Bool} {s : List Char} {i n : Nat}
    (h : chkRun p s i n = true) :
    ∀ j, j < n → ∃ c, s.get? (i + j) = some c ∧ p c := by
  intro j hj
  have := (List.all_eq_true.mp h) j (List.mem_range.mpr hj)
  cases hget : s.get? (i + j) with
  | none => rw [hget] at this; simp at this
  | some c => rw [hget] at this; exact ⟨c, rfl, this⟩

lemma chkRun_cover {p : Char → Bool} {s : List Char} {i n : Nat}
    (h : chkRun p s i n = true) :
    ∀ idx, i ≤ idx → idx < i + n → ∃ c, s.get? idx = some c ∧ p c := by
  intro idx h1 h2
  obtain ⟨c, hc, hp⟩ := chkRun_prop h (idx - i) (by omega)
  exact ⟨c, by rwa [Nat.add_sub_cancel' h1] at hc, hp⟩

lemma take_no_lt_of {s : List Char} {ℓ : Nat}
    (h : ∀ i, i < ℓ → ∃ c, s.get? i = some c ∧ c ≠ '<') :
    '<' ∉ s.take ℓ := by
  intro hmem
  obtain ⟨i, his⟩ := List.mem_iff_get?.mp hmem
  have hlen : i < (s.take ℓ).length := (List.get?_eq_some.mp his).1
  have hilt : i < ℓ := by
    have := List.length_take ℓ s
    omega
  obtain ⟨c, hc, hne⟩ := h i hilt
  rw [List.get?_take hilt, hc] at his
  exact hne (Option.some.inj his)

lemma digit_ne_lt {c : Char} (h : c.isDigit = true) : c ≠ '<' := by
  intro he; subst he; revert h; decide

lemma phoneSep_ne_lt {c : Char} (h : isPhoneSep c = true) : c ≠ '<' := by
  intro he; subst he; revert h; decide

lemma ccSep_ne_lt {c : Char} (h : isCcSep c = true) : c ≠ '<' := by
  intro he; subst he; revert h; decide

lemma local_ne_lt {c : Char} (h : isLocalChar c = true) : c ≠ '<' := by
  intro he; subst he; revert h; decide

lemma dom_ne_lt {c : Char} (h : isDomChar c = true) : c ≠ '<' := by
  intro he; subst he; revert h; decide

lemma alpha_ne_lt {c : Char} (h : c.isAlpha = true) : c ≠ '<' := by
  intro he; subst he; revert h; decide

lemma mem_of_head?_eq {α : Type} {l : List α} {a : α} (h : l.head? = some a) :
    a ∈ l := by
  cases l with
  | nil => simp at h
  | cons x xs =>
    simp only [List.head?_cons, Option.some.injEq] at h
    exact h ▸ List.mem_cons_self x xs

lemma sepChoices_mem {p : Char → Bool} {s : List Char} {i i' : Nat}
    (h : i' ∈ sepChoices p s i) :
    i' = i ∨ (i' = i + 1 ∧ ∃ c, s.get? i = some c ∧ p c = true) := by
  unfold sepChoices at h
  cases hg : s.get? i with
  | none => rw [hg] at h; simp at h; exact .inl h
  | some c =>
    rw [hg] at h
    dsimp only at h
    by_cases hp : p c
    · rw [if_pos hp] at h
      simp only [List.mem_cons, List.not_mem_nil, or_false] at h
      rcases h with h | h
      · exact .inr ⟨h, c, rfl, hp⟩
      · exact .inl h
    · rw [if_neg hp] at h
      simp only [List.mem_cons, List.not_mem_nil, or_false] at h
      exact .inl h

lemma ssn_consumed_safe {pw : Bool} {s : List Char} {ℓ : Nat}
    (h : ssnMatchAt pw s = some ℓ) :
    ∀ i, i < ℓ → ∃ c, s.get? i = some c ∧ c ≠ '<' := by
  unfold ssnMatchAt at h
  by_cases hpw : pw
  · simp [hpw] at h
  · rw [if_neg hpw] at h
    by_cases hc : (chkRun Char.isDigit s 0 3 && s.get? 3 = some '-'
        && chkRun Char.isDigit s 4 2 && s.get? 6 = some '-'
        && chkRun Char.isDigit s 7 4 && !wordAt s 11)
    · rw [if_pos hc] at h
      have hℓ : ℓ = 11 := (Option.some.inj h).symm
      simp only [Bool.and_eq_true, decide_eq_true_eq] at hc
      obtain ⟨⟨⟨⟨⟨h1, h2⟩, h3⟩, h4⟩, h5⟩, _⟩ := hc
      intro i hi
      subst hℓ
      by_cases c1 : i < 3
      · obtain ⟨c, hc', hd⟩ := chkRun_cover h1 i (by omega) (by omega)
        exact ⟨c, hc', digit_ne_lt hd⟩
      by_cases c2 : i = 3
      · exact ⟨'-', c2 ▸ h2, by decide⟩
      by_cases c3 : i < 6
      · obtain ⟨c, hc', hd⟩ := chkRun_cover h3 i (by omega) (by omega)
        exact ⟨c, hc', digit_ne_lt hd⟩
      by_cases c4 : i = 6
      · exact ⟨'-', c4 ▸ h4, by decide⟩
      · obtain ⟨c, hc', hd⟩ := chkRun_cover h5 i (by omega) (by omega)
        exact ⟨c, hc', digit_ne_lt hd⟩
    · rw [if_neg hc] at h; simp at h

lemma phoneMatchAt_spec {pw : Bool} {s : List Char} {ℓ : Nat}
    (h : phoneMatchAt pw s = some ℓ) :
    pw = false ∧ chkRun Char.isDigit s 0 3 = true ∧
    ∃ i j, (i = 3 ∨ i = 4 ∧ ∃ c, s.get? 3 = some c ∧ isPhoneSep c = true) ∧
      chkRun Char.isDigit s i 3 = true ∧
      (j = i + 3 ∨ j = i + 4 ∧ ∃ c, s.get? (i + 3) = some c ∧ isPhoneSep c = true) ∧
      chkRun Char.isDigit s j 4 = true ∧ wordAt s (j + 4) = false ∧ ℓ = j + 4 := by
  unfold phoneMatchAt at h
  by_cases hpw : pw
  · simp [hpw] at h
  · rw [if_neg hpw] at h
    by_cases h3 : chkRun Char.isDigit s 0 3
    · rw [if_pos h3] at h
      have hmem := mem_of_head?_eq h
      obtain ⟨i, hi, hmem2⟩ := List.mem_flatMap.mp hmem
      by_cases hci : chkRun Char.isDigit s i 3
      · rw [if_pos hci] at hmem2
        obtain ⟨j, hj, hj2⟩ := List.mem_filterMap.mp hmem2
        by_cases hcj : (chkRun Char.isDigit s j 4 && !wordAt s (j + 4))
        · rw [if_pos hcj] at hj2
          have hℓ : ℓ = j + 4 := (Option.some.inj hj2).symm
          simp only [Bool.and_eq_true, Bool.not_eq_true'] at hcj
          refine ⟨by simpa using hpw, h3, i, j, ?_, hci, ?_, hcj.1, hcj.2, hℓ⟩
          · rcases sepChoices_mem hi with h' | h'
            · exact .inl h'
            · exact .inr h'
          · rcases sepChoices_mem hj with h' | h'
            · exact .inl h'
            · exact .inr h'
        · rw [if_neg hcj] at hj2; simp at hj2
      · rw [if_neg hci] at hmem2; simp at hmem2
    · rw [if_neg h3] at h; simp at h

lemma phone_consumed_safe {pw : Bool} {s : List Char} {ℓ : Nat}
    (h : phoneMatchAt pw s = some ℓ) :
    ∀ i, i < ℓ → ∃ c, s.get? i = some c ∧ c ≠ '<' := by
  obtain ⟨-, h1, i, j, hi, h2, hj, h3, -, hℓ⟩ := phoneMatchAt_spec h
  intro idx hidx
  subst hℓ
  have hi' : i = 3 ∨ i = 4 := by rcases hi with h' | ⟨h', -⟩ <;> omega
  have hj' : j = i + 3 ∨ j = i + 4 := by rcases hj with h' | ⟨h', -⟩ <;> omega
  by_cases c1 : idx < 3
  · obtain ⟨c, hc', hd⟩ := chkRun_cover h1 idx (by omega) (by omega)
    exact ⟨c, hc', digit_ne_lt hd⟩
  by_cases c2 : idx < i
  · have : idx = 3 ∧ i = 4 := by omega
    rcases hi with h' | ⟨-, c, hc', hp⟩
    · omega
    · exact ⟨c, this.1 ▸ hc', phoneSep_ne_lt hp⟩
  by_cases c3 : idx < i + 3
  · obtain ⟨c, hc', hd⟩ := chkRun_cover h2 idx (by omega) (by omega)
    exact ⟨c, hc', digit_ne_lt hd⟩
  by_cases c4 : idx < j
  · have : idx = i + 3 ∧ j = i + 4 := by omega
    rcases hj with h' | ⟨-, c, hc', hp⟩
    · omega
    · exact ⟨c, this.1 ▸ hc', phoneSep_ne_lt hp⟩
  · obtain ⟨c, hc', hd⟩ := chkRun_cover h3 idx (by omega) (by omega)
    exact ⟨c, hc', digit_ne_lt hd⟩

lemma ccMatchAt_spec {pw : Bool} {s : List Char} {ℓ : Nat}
    (h : ccMatchAt pw s = some ℓ) :
    pw = false ∧ chkRun Char.isDigit s 0 4 = true ∧
    ∃ i j k, (i = 4 ∨ i = 5 ∧ ∃ c, s.get? 4 = some c ∧ isCcSep c = true) ∧
      chkRun Char.isDigit s i 4 = true ∧
      (j = i + 4 ∨ j = i + 5 ∧ ∃ c, s.get? (i + 4) = some c ∧ isCcSep c = true) ∧
      chkRun Char.isDigit s j 4 = true ∧
      (k = j + 4 ∨ k = j + 5 ∧ ∃ c, s.get? (j + 4) = some c ∧ isCcSep c = true) ∧
      chkRun Char.isDigit s k 4 = true ∧ wordAt s (k + 4) = false ∧ ℓ = k + 4 := by
  unfold ccMatchAt at h
  by_cases hpw : pw
  · simp [hpw] at h
  · rw [if_neg hpw] at h
    by_cases h4 : chkRun Char.isDigit s 0 4
    · rw [if_pos h4] at h
      have hmem := mem_of_head?_eq h
      obtain ⟨i, hi, hmem2⟩ := List.mem_flatMap.mp hmem
      by_cases hci : chkRun Char.isDigit s i 4
      · rw [if_pos hci] at hmem2
        obtain ⟨j, hj, hmem3⟩ := List.mem_flatMap.mp hmem2
        by_cases hcj : chkRun Char.isDigit s j 4
        · rw [if_pos hcj] at hmem3
          obtain ⟨k, hk, hk2⟩ := List.mem_filterMap.mp hmem3
          by_cases hck : (chkRun Char.isDigit s k 4 && !wordAt s (k + 4))
          · rw [if_pos hck] at hk2
            have hℓ : ℓ = k + 4 := (Option.some.inj hk2).symm
            simp only [Bool.and_eq_true, Bool.not_eq_true'] at hck
            exact ⟨by simpa using hpw, h4, i, j, k, sepChoices_mem hi, hci,
              sepChoices_mem hj, hcj, sepChoices_mem hk, hck.1, hck.2, hℓ⟩
          · rw [if_neg hck] at hk2; simp at hk2
        · rw [if_neg hcj] at hmem3; simp at hmem3
      · rw [if_neg hci] at hmem2; simp at hmem2
    · rw [if_neg h4] at h; simp at h

lemma cc_consumed_safe {pw : Bool} {s : List Char} {ℓ : Nat}
    (h : ccMatchAt pw s = some ℓ) :
    ∀ i, i < ℓ → ∃ c, s.get? i = some c ∧ c ≠ '<' := by
  obtain ⟨-, h1, i, j, k, hi, h2, hj, h3, hk, h4, -, hℓ⟩ := ccMatchAt_spec h
  intro idx hidx
  subst hℓ
  have hi' : i = 4 ∨ i = 5 := by rcases hi with h' | ⟨h', -⟩ <;> omega
  have hj' : j = i + 4 ∨ j = i + 5 := by rcases hj with h' | ⟨h', -⟩ <;> omega
  have hk' : k = j + 4 ∨ k = j + 5 := by rcases hk with h' | ⟨h', -⟩ <;> omega
  by_cases c1 : idx < 4
  · obtain ⟨c, hc', hd⟩ := chkRun_cover h1 idx (by omega) (by omega)
    exact ⟨c, hc', digit_ne_lt hd⟩
  by_cases c2 : idx < i
  · have he : idx = 4 := by omega
    rcases hi with h' | ⟨-, c, hc', hp⟩
    · omega
    · exact ⟨c, he ▸ hc', ccSep_ne_lt hp⟩
  by_cases c3 : idx < i + 4
  · obtain ⟨c, hc', hd⟩ := chkRun_cover h2 idx (by omega) (by omega)
    exact ⟨c, hc', digit_ne_lt hd⟩
  by_cases c4 : idx < j
  · have he : idx = i + 4 := by omega
    rcases hj with h' | ⟨-, c, hc', hp⟩
    · omega
    · exact ⟨c, he ▸ hc', ccSep_ne_lt hp⟩
  by_cases c5 : idx < j + 4
  · obtain ⟨c, hc', hd⟩ := chkRun_cover h3 idx (by omega) (by omega)
    exact ⟨c, hc', digit_ne_lt hd⟩
  by_cases c6 : idx < k
  · have he : idx = j + 4 := by omega
    rcases hk with h' | ⟨-, c, hc', hp⟩
    · omega
    · exact ⟨c, he ▸ hc', ccSep_ne_lt hp⟩
  · obtain ⟨c, hc', hd⟩ := chkRun_cover h4 idx (by omega) (by omega)
    exact ⟨c, hc', digit_ne_lt hd⟩

lemma emailDomSplit_le {rest : List Char} {n d : Nat}
    (h : emailDomSplit rest n = some d) : d ≤ n := by
  induction n with
  | zero => simp [emailDomSplit] at h
  | succ m ih =>
    unfold emailDomSplit at h
    split at h
    · exact (Option.some.inj h) ▸ Nat.le_refl _
    · exact Nat.le_succ_of_le (ih h)

lemma emailDomSplit_spec {rest : List Char} {n d : Nat}
    (h : emailDomSplit rest n = some d) :
    rest.get? d = some '.' ∧
    (∃ c, rest.get? (d + 1) = some c ∧ c.isAlpha = true) ∧ 1 ≤ d := by
  induction n with
  | zero => simp [emailDomSplit] at h
  | succ m ih =>
    unfold emailDomSplit at h
    split at h
    · next hcond =>
      simp only [Bool.and_eq_true, decide_eq_true_eq] at hcond
      obtain ⟨⟨hdot, ha⟩, -⟩ := hcond
      have hd : d = m + 1 := (Option.some.inj h).symm
      subst hd
      refine ⟨hdot, ?_, by omega⟩
      cases hg : rest.get? (m + 1 + 1) with
      | none => rw [hg] at ha; simp [Option.any] at ha
      | some c => rw [hg] at ha; exact ⟨c, rfl, by simpa [Option.any] using ha⟩
    · exact ih h

lemma email_consumed_safe {pw : Bool} {s : List Char} {ℓ : Nat}
    (h : emailMatchAt pw s = some ℓ) :
    ∀ i, i < ℓ → ∃ c, s.get? i = some c ∧ c ≠ '<' := by
  simp only [emailMatchAt] at h
  by_cases h0 : takeCount isLocalChar s = 0
  · simp [h0] at h
  rw [if_neg h0] at h
  by_cases hat : s.get? (takeCount isLocalChar s) = some '@'
  · rw [if_pos hat] at h
    cases hd : emailDomSplit (s.drop (takeCount isLocalChar s + 1))
        (takeCount isDomChar (s.drop (takeCount isLocalChar s + 1))) with
    | none => rw [hd] at h; simp at h
    | some d =>
      rw [hd] at h
      have hℓ : ℓ = takeCount isLocalChar s + 1 + d + 1 +
          takeCount Char.isAlpha
            ((s.drop (takeCount isLocalChar s + 1)).drop (d + 1)) :=
        (Option.some.inj h).symm
      obtain ⟨hdot, -, -⟩ := emailDomSplit_spec hd
      have hdle := emailDomSplit_le hd
      subst hℓ
      intro i hi
      by_cases c1 : i < takeCount isLocalChar s
      · obtain ⟨c, hc, hl⟩ := takeCount_prop isLocalChar s i c1
        exact ⟨c, hc, local_ne_lt hl⟩
      by_cases c2 : i = takeCount isLocalChar s
      · exact ⟨'@', c2 ▸ hat, by decide⟩
      have hget : s.get? i
          = (s.drop (takeCount isLocalChar s + 1)).get?
              (i - (takeCount isLocalChar s + 1)) := by
        rw [List.get?_drop]
        congr 1
        omega
      by_cases c3 : i - (takeCount isLocalChar s + 1) < d
      · obtain ⟨c, hc, hdc⟩ := takeCount_prop isDomChar
          (s.drop (takeCount isLocalChar s + 1))
          (i - (takeCount isLocalChar s + 1)) (by omega)
        exact ⟨c, by rw [hget]; exact hc, dom_ne_lt hdc⟩
      by_cases c4 : i - (takeCount isLocalChar s + 1) = d
      · exact ⟨'.', by rw [hget, c4]; exact hdot, by decide⟩
      · obtain ⟨c, hc, hal⟩ := takeCount_prop Char.isAlpha
          ((s.drop (takeCount isLocalChar s + 1)).drop (d + 1))
          (i - (takeCount isLocalChar s + 1) - (d + 1)) (by omega)
        have hsh : ((s.drop (takeCount isLocalChar s + 1)).drop (d + 1)).get?
            (i - (takeCount isLocalChar s + 1) - (d + 1))
            = (s.drop (takeCount isLocalChar s + 1)).get?
                (i - (takeCount isLocalChar s + 1)) := by
          rw [List.get?_drop]
          congr 1
          omega
        exact ⟨c, by rw [hget, ← hsh]; exact hc, alpha_ne_lt hal⟩
  · rw [if_neg hat] at h
    simp at h

/-- Any of the four matchers consumes no `'<'`. -/
lemma matcher_take_no_lt (k : PiiKind) {pw : Bool} {s : List Char} {ℓ : Nat}
    (h : k.matcher pw s = some ℓ) : '<' ∉ s.take ℓ := by
  cases k with
  | EMAIL => exact take_no_lt_of (@email_consumed_safe pw s ℓ h)
  | PHONE => exact take_no_lt_of (@phone_consumed_safe pw s ℓ h)
  | SSN => exact take_no_lt_of (@ssn_consumed_safe pw s ℓ h)
  | CREDIT_CARD => exact take_no_lt_of (@cc_consumed_safe pw s ℓ h)

lemma token_has_lt (k : PiiKind) : '<' ∈ (PiiKind.token k).data := by
  cases k <;> decide

/-- The substitution scan: if nothing matched the text is unchanged; the
`'<'` count never decreases, and strictly increases when a match fired. -/
lemma scanSub_count (m : Bool → List Char → Option Nat) (tok : List Char)
    (hm : ∀ pw s ℓ, m pw s = some ℓ → '<' ∉ s.take ℓ)
    (htok : '<' ∈ tok) :
    ∀ fuel pw s,
      ((scanSub m tok fuel pw s).2 = false → (scanSub m tok fuel pw s).1 = s) ∧
      s.count '<' ≤ (scanSub m tok fuel pw s).1.count '<' ∧
      ((scanSub m tok fuel pw s).2 = true →
        s.count '<' < (scanSub m tok fuel pw s).1.count '<') := by
  intro fuel
  induction fuel with
  | zero => intro pw s; exact ⟨fun _ => rfl, Nat.le_refl _, by simp [scanSub]⟩
  | succ n ih =>
    intro pw s
    cases s with
    | nil => exact ⟨fun _ => rfl, Nat.le_refl _, by simp [scanSub]⟩
    | cons c cs =>
      cases hmm : m pw (c :: cs) with
      | none =>
        have hred : scanSub m tok (n + 1) pw (c :: cs)
            = ((c :: (scanSub m tok n (isWordChar c) cs).1),
               (scanSub m tok n (isWordChar c) cs).2) := by
          simp only [scanSub, hmm]
        obtain ⟨ih1, ih2, ih3⟩ := ih (isWordChar c) cs
        rw [hred]
        refine ⟨fun hf => by rw [ih1 hf], ?_, fun hf => ?_⟩
        · simp only [List.count_cons]
          omega
        · have := ih3 hf
          simp only [List.count_cons]
          omega
      | some ℓ =>
        cases ℓ with
        | zero =>
          have hred : scanSub m tok (n + 1) pw (c :: cs)
              = ((c :: (scanSub m tok n (isWordChar c) cs).1),
                 (scanSub m tok n (isWordChar c) cs).2) := by
            simp only [scanSub, hmm]
          obtain ⟨ih1, ih2, ih3⟩ := ih (isWordChar c) cs
          rw [hred]
          refine ⟨fun hf => by rw [ih1 hf], ?_, fun hf => ?_⟩
          · simp only [List.count_cons]
            omega
          · have := ih3 hf
            simp only [List.count_cons]
            omega
        | succ ℓ' =>
          have hred : scanSub m tok (n + 1) pw (c :: cs)
              = (tok ++ (scanSub m tok n (wordAt (c :: cs) ℓ')
                    ((c :: cs).drop (ℓ' + 1))).1, true) := by
            simp only [scanSub, hmm]
          obtain ⟨-, ih2, -⟩ := ih (wordAt (c :: cs) ℓ') ((c :: cs).drop (ℓ' + 1))
          rw [hred]
          have htk : 1 ≤ tok.count '<' := List.count_pos_iff_mem.mpr htok
          have hsplit : (c :: cs).count '<'
              = ((c :: cs).take (ℓ' + 1)).count '<'
                + ((c :: cs).drop (ℓ' + 1)).count '<' := by
            conv_lhs => rw [← List.take_append_drop (ℓ' + 1) (c :: cs)]
            rw [List.count_append]
          have hz : ((c :: cs).take (ℓ' + 1)).count '<' = 0 :=
            List.count_eq_zero.mpr (hm pw (c :: cs) (ℓ' + 1) hmm)
          constructor
          · intro hfalse
            exact absurd hfalse (by simp)
          constructor
          · rw [List.count_append]
            omega
          · intro hfound
            rw [List.count_append]
            omega

lemma subPattern_count (k : PiiKind) (s : String) :
    ((subPattern k s).2 = false → (subPattern k s).1 = s) ∧
    s.data.count '<' ≤ (subPattern k s).1.data.count '<' ∧
    ((subPattern k s).2 = true →
      s.data.count '<' < (subPattern k s).1.data.count '<') := by
  have hc := scanSub_count k.matcher (PiiKind.token k).data
    (fun pw l ℓ h => matcher_take_no_lt k h) (token_has_lt k)
    s.data.length false s.data
  obtain ⟨h1, h2, h3⟩ := hc
  refine ⟨fun hf => ?_, by simpa [subPattern] using h2, fun hf => ?_⟩
  · have := h1 (by simpa [subPattern] using hf)
    simp only [subPattern]
    rw [this]
  · simpa [subPattern] using h3 (by simpa [subPattern] using hf)

lemma piiFold_count (pats : List PiiKind) (st : String × List String) :
    st.1.data.count '<' ≤ (List.foldl piiStep st pats).1.data.count '<' ∧
    ((List.foldl piiStep st pats).2 = st.2 ∨
      st.1.data.count '<' < (List.foldl piiStep st pats).1.data.count '<') := by
  induction pats generalizing st with
  | nil => exact ⟨Nat.le_refl _, .inl rfl⟩
  | cons k ps ih =>
    obtain ⟨hs1, hs2, hs3⟩ := subPattern_count k st.1
    by_cases h : (subPattern k st.1).2
    · have hstep : piiStep st k = ((subPattern k st.1).1, st.2 ++ ["PII:" ++ k.pname]) := by
        simp [piiStep, h]
      obtain ⟨ih1, -⟩ := ih ((subPattern k st.1).1, st.2 ++ ["PII:" ++ k.pname])
      dsimp only at ih1
      have hlt := hs3 h
      constructor
      · simp only [List.foldl_cons, hstep]
        omega
      · right
        simp only [List.foldl_cons, hstep]
        omega
    · have hstep : piiStep st k = st := by
        simp [piiStep, h]
      simp only [List.foldl_cons, hstep]
      exact ih st

/-- If the PII loop fired at least one rule, the text strictly gained a
`'<'` and so differs from the input. -/
lemma piiStage_ne_of_triggered {pats : List PiiKind} {s : String}
    (h : (piiStage pats s).2 ≠ []) : (piiStage pats s).1 ≠ s := by
  obtain ⟨-, h2⟩ := piiFold_count pats (s, [])
  dsimp only at h2
  unfold piiStage at h ⊢
  rcases h2 with h2 | h2
  · exact absurd h2 h
  · intro he
    rw [he] at h2
    exact Nat.lt_irrefl _ h2

lemma isPrefixOf_append_of_le {α : Type} [BEq α] {p a b : List α}
    (h : p.length ≤ a.length) : p.isPrefixOf (a ++ b) = p.isPrefixOf a := by
  induction p generalizing a with
  | nil => simp [List.isPrefixOf]
  | cons x xs ih =>
    cases a with
    | nil => simp at h
    | cons y ys =>
      simp only [List.cons_append, List.isPrefixOf, List.append_eq]
      rw [ih (by simpa using h)]

/-- A string that continues a `'<'`-free literal of length ≥ 4 whose own
`"PII:"` test fails also fails the `"PII:"` test. -/
lemma pyStartsWith_append_false (lit x : String) (h4 : 4 ≤ lit.length)
    (h : pyStartsWith lit "PII:" = false) :
    pyStartsWith (lit ++ x) "PII:" = false := by
  unfold pyStartsWith at h ⊢
  rw [String.data_append, isPrefixOf_append_of_le]
  · exact h
  · have : lit.length = lit.data.length := rfl
    have h4' : ("PII:" : String).data.length = 4 := rfl
    omega

lemma append_ne_empty_of_left (a b : String) (h : a.length ≠ 0) :
    (a ++ b) ≠ "" := by
  intro he
  have := congrArg String.length he
  rw [String.length_append] at this
  simp at this
  omega

/-- Elements appended by the PII loop are `"PII:" ++ kind`. -/
lemma piiFold_elems (pats : List PiiKind) (st : String × List String) :
    ∀ x ∈ (List.foldl piiStep st pats).2,
      x ∈ st.2 ∨ ∃ k : PiiKind, x = "PII:" ++ k.pname := by
  induction pats generalizing st with
  | nil => intro x hx; exact .inl hx
  | cons k ps ih =>
    intro x hx
    simp only [List.foldl_cons] at hx
    by_cases h : (subPattern k st.1).2
    · have hstep : piiStep st k = ((subPattern k st.1).1, st.2 ++ ["PII:" ++ k.pname]) := by
        simp [piiStep, h]
      rw [hstep] at hx
      rcases ih _ x hx with hin | hnew
      · rcases List.mem_append.mp hin with h' | h'
        · exact .inl h'
        · simp only [List.mem_singleton] at h'
          exact .inr ⟨k, h'⟩
      · exact .inr hnew
    · have hstep : piiStep st k = st := by simp [piiStep, h]
      rw [hstep] at hx
      exact ih st x hx

/-- Every trigger string appended by the non-PII stages fails the
`"PII:"` prefix test and is nonempty. -/
def goodRest (l : List String) : Prop :=
  ∀ x ∈ l, pyStartsWith x "PII:" = false ∧ x ≠ ""

lemma goodRest_append {a b : List String} (ha : goodRest a) (hb : goodRest b) :
    goodRest (a ++ b) := by
  intro x hx
  rcases List.mem_append.mp hx with h | h
  · exact ha x h
  · exact hb x h

lemma goodRest_nil : goodRest [] := by
  intro x hx
  simp at hx

lemma joinComma_ne_empty : ∀ l : List String, l ≠ [] → (∀ x ∈ l, x ≠ "") →
    joinComma l ≠ ""
  | [], h, _ => absurd rfl h
  | [x], _, hx => by simpa [joinComma] using hx x (by simp)
  | x :: y :: ys, _, hx => by
    show x ++ ", " ++ joinComma (y :: ys) ≠ ""
    rw [String.append_assoc]
    apply append_ne_empty_of_left
    intro hlen
    have hxne := hx x (by simp)
    apply hxne
    cases x with
    | mk d =>
      cases d with
      | nil => rfl
      | cons c cs => simp [String.length] at hlen

lemma goodRest_injTrig (cfg : EngineConfig) (src : Source) (s : String) :
    goodRest (injTrig cfg src s) := by
  unfold injTrig
  split
  · intro x hx
    simp only [List.mem_singleton] at hx
    subst hx
    exact ⟨by decide, by decide⟩
  · exact goodRest_nil

lemma goodRest_topicTrig (cfg : EngineConfig) (s : String) :
    goodRest (topicTrig cfg s) := by
  unfold topicTrig
  split
  · exact goodRest_nil
  · dsimp only
    split
    · exact goodRest_nil
    · intro x hx
      simp only [List.mem_singleton] at hx
      subst hx
      exact ⟨pyStartsWith_append_false "Topic:" _ (by decide) (by decide),
        append_ne_empty_of_left "Topic:" _ (by decide)⟩

lemma semanticReason_not_pii (i : String) (v : ℚ) :
    pyStartsWith (semanticReason i v) "PII:" = false := by
  unfold semanticReason
  simp only [String.append_assoc]
  exact pyStartsWith_append_false "Semantic:Intent violation (matched '" _
    (by decide) (by decide)

lemma semanticReason_ne_empty (i : String) (v : ℚ) :
    semanticReason i v ≠ "" := by
  unfold semanticReason
  simp only [String.append_assoc]
  exact append_ne_empty_of_left "Semantic:Intent violation (matched '" _ (by decide)

lemma goodRest_semTrig (cfg : EngineConfig) (src : Source) (s : String) :
    goodRest (semTrigPair cfg src s).1 := by
  unfold semTrigPair
  cases cfg.semantic with
  | none => exact goodRest_nil
  | some sc =>
    dsimp only
    split
    · unfold semStage
      split
      · exact goodRest_nil
      · dsimp only
        split
        · intro x hx
          simp only [List.mem_singleton] at hx
          subst hx
          exact ⟨semanticReason_not_pii _ _, semanticReason_ne_empty _ _⟩
        · exact goodRest_nil
    · exact goodRest_nil

lemma goodRest_extTrig (cfg : EngineConfig) (src : Source) (s : String) :
    goodRest (extTrig cfg src s) := by
  unfold extTrig
  cases cfg.externalHub with
  | none => exact goodRest_nil
  | some ext =>
    dsimp only
    split
    · cases ext s with
      | none => exact goodRest_nil
      | some e =>
        dsimp only
        intro x hx
        simp only [List.mem_singleton] at hx
        subst hx
        exact ⟨pyStartsWith_append_false "External: " _ (by decide) (by decide),
          append_ne_empty_of_left "External: " _ (by decide)⟩
    · exact goodRest_nil

lemma goodRest_pluginTrig (cfg : EngineConfig) (s : String) :
    goodRest (pluginTrig cfg s) := by
  intro x hx
  unfold pluginTrig at hx
  obtain ⟨pl, -, hpl⟩ := List.mem_filterMap.mp hx
  cases hps : pl s with
  | none => rw [hps] at hpl; simp at hpl
  | some e =>
    rw [hps] at hpl
    simp only [Option.map_some', Option.some.injEq] at hpl
    subst hpl
    exact ⟨pyStartsWith_append_false "Plugin:" _ (by decide) (by decide),
      append_ne_empty_of_left "Plugin:" _ (by decide)⟩

/-- The scan's trigger list is the PII triggers followed by the non-PII
stage triggers, each of which fails the `"PII:"` test and is nonempty. -/
lemma scan_trig_decomp (cfg : EngineConfig) (src : Source) (t : String) :
    ∃ rest, (scan cfg src t).triggered_rules = (piiStage cfg.pii t).2 ++ rest ∧
      goodRest rest := by
  refine ⟨injTrig cfg src (piiStage cfg.pii t).1
      ++ (topicTrig cfg (piiStage cfg.pii t).1
      ++ ((semTrigPair cfg src (piiStage cfg.pii t).1).1
      ++ (extTrig cfg src (piiStage cfg.pii t).1
      ++ pluginTrig cfg (piiStage cfg.pii t).1))), ?_, ?_⟩
  · have hx : (scan cfg src t).triggered_rules
        = (((((piiStage cfg.pii t).2
              ++ injTrig cfg src (piiStage cfg.pii t).1)
              ++ topicTrig cfg (piiStage cfg.pii t).1)
              ++ (semTrigPair cfg src (piiStage cfg.pii t).1).1)
              ++ extTrig cfg src (piiStage cfg.pii t).1)
              ++ pluginTrig cfg (piiStage cfg.pii t).1 := rfl
    rw [hx]
    simp [List.append_assoc]
  · exact goodRest_append (goodRest_injTrig cfg src _)
      (goodRest_append (goodRest_topicTrig cfg _)
        (goodRest_append (goodRest_semTrig cfg src _)
          (goodRest_append (goodRest_extTrig cfg src _)
            (goodRest_pluginTrig cfg _))))

/-- C4: verdict invariants of `validate` — a `shadow_block` verdict is valid
with a nonempty reason; a `redacted` verdict is valid and its text
differs from the input; an `allowed` (or `none`, never produced) verdict
carries the input unchanged. -/
theorem c4_verdict_invariants (cfg : EngineConfig) (text : String) :
    ((validate cfg text).action = "shadow_block" →
      (validate cfg text).valid = true ∧ (validate cfg text).reason ≠ "") ∧
    ((validate cfg text).action = "redacted" →
      (validate cfg text).valid = true ∧
        (validate cfg text).sanitized_text ≠ text) ∧
    (((validate cfg text).action = "allowed" ∨
        (validate cfg text).action = "none") →
      (validate cfg text).sanitized_text = text) := by
  obtain ⟨rest, hdec, hgood⟩ := scan_trig_decomp cfg Source.input text
  have hval : validate cfg text
      = packageResult cfg.shadow_mode (scan cfg Source.input text) := rfl
  have hsan : (scan cfg Source.input text).sanitized_prompt
      = (piiStage cfg.pii text).1 := rfl
  rw [hval]
  unfold packageResult
  by_cases h1 : (scan cfg Source.input text).triggered_rules.isEmpty
  · rw [if_pos h1]
    refine ⟨fun hc => by simp at hc, fun hc => by simp at hc,
      fun _ => ?_⟩
    show (scan cfg Source.input text).sanitized_prompt = text
    rw [hsan]
    have hnil : (scan cfg Source.input text).triggered_rules = [] := by
      cases hx : (scan cfg Source.input text).triggered_rules with
      | nil => rfl
      | cons a l => rw [hx] at h1; cases h1
    rw [hdec] at hnil
    have hpii : (piiStage cfg.pii text).2 = [] := (List.append_eq_nil.mp hnil).1
    exact piiFold_id cfg.pii (text, []) hpii
  · rw [if_neg h1]
    by_cases h2 : ((scan cfg Source.input text).triggered_rules.all
        (fun t => pyStartsWith t "PII:")) = true
    · rw [if_pos h2]
      refine ⟨fun hc => by simp at hc, fun _ => ⟨rfl, ?_⟩,
        fun hc => by rcases hc with hc | hc <;> simp at hc⟩
      show (scan cfg Source.input text).sanitized_prompt ≠ text
      rw [hsan]
      apply piiStage_ne_of_triggered
      intro hpii
      rw [hdec, hpii, List.nil_append] at h1 h2
      cases hrest : rest with
      | nil => rw [hrest] at h1; exact h1 rfl
      | cons a l =>
        have hmem : a ∈ rest := by rw [hrest]; exact List.mem_cons_self a l
        have hx := (List.all_eq_true.mp h2) a hmem
        have hfx := (hgood a hmem).1
        rw [hfx] at hx
        cases hx
    · by_cases h3 : cfg.shadow_mode
      · rw [if_neg h2, if_pos h3]
        refine ⟨fun _ => ⟨rfl, ?_⟩, fun hc => by simp at hc,
          fun hc => by rcases hc with hc | hc <;> simp at hc⟩
        show joinComma (scan cfg Source.input text).triggered_rules ≠ ""
        apply joinComma_ne_empty
        · intro hnil
          rw [hnil] at h1
          exact h1 rfl
        · intro x hx
          rw [hdec] at hx
          rcases List.mem_append.mp hx with hin | hin
          · rcases piiFold_elems cfg.pii (text, []) x hin with h' | ⟨k, hk⟩
            · simp at h'
            · rw [hk]
              exact append_ne_empty_of_left "PII:" _ (by decide)
          · exact (hgood x hin).2
      · rw [if_neg h2, if_neg h3]
        exact ⟨fun hc => by simp at hc, fun hc => by simp at hc,
          fun hc => by rcases hc with hc | hc <;> simp at hc⟩

def c4wcfg : EngineConfig :=
  { pii := [.EMAIL], injection := [], topics := [], semantic := none,
    externalHub := none, plugins := [], shadow_mode := false }

/-- Witness for C4's redacted branch at a concrete input. -/
theorem c4_witness :
    (validate c4wcfg "a@b.co").valid = true ∧
    (validate c4wcfg "a@b.co").sanitized_text ≠ "a@b.co" :=
  (c4_verdict_invariants c4wcfg "a@b.co").2.1 (by decide)

/-! ## Claim C5: semantic-intent threshold semantics -/

/-- The score vector of the semantic stage: one similarity per stored
intent, computed on the PII-sanitized text. -/
def semScores (cfg : EngineConfig) (sc : SemanticCfg) (text : String) : List ℚ :=
  sc.intents.map fun it => sc.sim (piiStage cfg.pii text).1 it

lemma argmaxAux_ub (l : List ℚ) :
    ∀ (i : Nat) (b : Nat × ℚ),
      b.2 ≤ (argmaxAux l i b).2 ∧ ∀ v ∈ l, v ≤ (argmaxAux l i b).2 := by
  induction l with
  | nil => intro i b; exact ⟨le_refl _, by simp⟩
  | cons v vs ih =>
    intro i b
    have hred : argmaxAux (v :: vs) i b
        = argmaxAux vs (i + 1) (if v > b.2 then (i, v) else b) := rfl
    rw [hred]
    by_cases hv : v > b.2
    · rw [if_pos hv]
      obtain ⟨h1, h2⟩ := ih (i + 1) (i, v)
      refine ⟨le_trans (le_of_lt hv) h1, ?_⟩
      intro w hw
      rcases List.mem_cons.mp hw with h | h
      · exact h ▸ h1
      · exact h2 w h
    · rw [if_neg hv]
      obtain ⟨h1, h2⟩ := ih (i + 1) b
      refine ⟨h1, ?_⟩
      intro w hw
      rcases List.mem_cons.mp hw with h | h
      · exact h ▸ le_trans (le_of_not_lt hv) h1
      · exact h2 w h

lemma argmaxAux_cases (l : List ℚ) :
    ∀ (i : Nat) (b : Nat × ℚ),
      argmaxAux l i b = b ∨
      (b.2 < (argmaxAux l i b).2 ∧ ∃ k, k < l.length ∧
        (argmaxAux l i b).1 = i + k ∧
        l.get? k = some (argmaxAux l i b).2 ∧
        ∀ j v, j < k → l.get? j = some v → v < (argmaxAux l i b).2) := by
  induction l with
  | nil => intro i b; exact .inl rfl
  | cons v vs ih =>
    intro i b
    have hred : argmaxAux (v :: vs) i b
        = argmaxAux vs (i + 1) (if v > b.2 then (i, v) else b) := rfl
    rw [hred]
    by_cases hv : v > b.2
    · rw [if_pos hv]
      right
      rcases ih (i + 1) (i, v) with heq | ⟨hlt, k, hk, hidx, hget, hearly⟩
      · rw [heq]
        exact ⟨hv, 0, by simp, by simp, rfl, fun j w hj => by omega⟩
      · refine ⟨lt_trans hv hlt, k + 1, by simpa using hk, by rw [hidx]; omega,
          by simpa using hget, ?_⟩
        intro j w hj hw
        cases j with
        | zero =>
          simp only [List.get?_cons_zero, Option.some.injEq] at hw
          exact hw ▸ hlt
        | succ j' =>
          simp only [List.get?_cons_succ] at hw
          exact hearly j' w (by omega) hw
    · rw [if_neg hv]
      rcases ih (i + 1) b with heq | ⟨hlt, k, hk, hidx, hget, hearly⟩
      · exact .inl heq
      · right
        refine ⟨hlt, k + 1, by simpa using hk, by rw [hidx]; omega,
          by simpa using hget, ?_⟩
        intro j w hj hw
        cases j with
        | zero =>
          simp only [List.get?_cons_zero, Option.some.injEq] at hw
          exact hw ▸ lt_of_le_of_lt (le_of_not_lt hv) hlt
        | succ j' =>
          simp only [List.get?_cons_succ] at hw
          exact hearly j' w (by omega) hw

/-- `numpy.argmax`: the reported entry is the value at the reported
index, every earlier entry is strictly smaller (first occurrence of the
maximum), and it is an upper bound of the whole vector. -/
lemma argmaxFirst_spec (l : List ℚ) (hne : l ≠ []) :
    (argmaxFirst l).1 < l.length ∧
    l.get? (argmaxFirst l).1 = some (argmaxFirst l).2 ∧
    (∀ j v, j < (argmaxFirst l).1 → l.get? j = some v → v < (argmaxFirst l).2) ∧
    (∀ v ∈ l, v ≤ (argmaxFirst l).2) := by
  cases l with
  | nil => exact absurd rfl hne
  | cons x xs =>
    have hred : argmaxFirst (x :: xs) = argmaxAux xs 1 (0, x) := rfl
    rw [hred]
    have hlen : (x :: xs).length = xs.length + 1 := rfl
    rw [hlen]
    obtain ⟨hub1, hub2⟩ := argmaxAux_ub xs 1 (0, x)
    rcases argmaxAux_cases xs 1 (0, x) with heq | ⟨hlt, k, hk, hidx, hget, hearly⟩
    · rw [heq] at hub2 ⊢
      refine ⟨by simp, by simp, fun j v hj => by omega, ?_⟩
      intro v hv
      rcases List.mem_cons.mp hv with h | h
      · exact h ▸ le_refl _
      · exact hub2 v h
    · refine ⟨by omega, ?_, ?_, ?_⟩
      · rw [hidx]
        have : (1 : Nat) + k = k + 1 := by omega
        rw [this, List.get?_cons_succ]
        exact hget
      · intro j v hj hv
        rw [hidx] at hj
        cases j with
        | zero =>
          simp only [List.get?_cons_zero, Option.some.injEq] at hv
          exact hv ▸ hlt
        | succ j' =>
          simp only [List.get?_cons_succ] at hv
          exact hearly j' v (by omega) hv
      · intro v hv
        rcases List.mem_cons.mp hv with h | h
        · rw [h]
          exact le_of_lt hlt
        · exact hub2 v h

/-- `0.45` as an already-normalized rational. -/
def q45 : ℚ := ⟨9, 20, by decide, by decide⟩

def c5sc : SemanticCfg :=
  { intents := ["jailbreak attempt"], sim := fun _ _ => q45, threshold := q45 }

def c5cfg : EngineConfig :=
  { pii := [], injection := [], topics := [], semantic := some c5sc,
    externalHub := none, plugins := [], shadow_mode := false }

/-- C5 counterexample: the claim's `≥` is wrong — with the maximum similarity exactly equal
to the threshold (0.45), `scan` uses a strict `>` and does not block —
the verdict is `allowed`. -/
theorem c5_counterexample :
    (argmaxFirst (semScores c5cfg c5sc "hello")).2 = c5sc.threshold ∧
    (validate c5cfg "hello").action = "allowed" ∧
    (validate c5cfg "hello").valid = true :=
  ⟨rfl, rfl, rfl⟩

/-- C5 (amended): the semantic stage fires exactly when the
maximum similarity is *strictly above* the threshold; the matched intent
is the one at the first (lowest) index attaining the maximum; the reason
string has the documented shape; and a firing stage blocks the verdict
when shadow mode is off. -/
theorem c5_amended (cfg : EngineConfig) (sc : SemanticCfg) (text : String)
    (hsem : cfg.semantic = some sc) (hne : sc.intents ≠ []) :
    ((semTrigPair cfg Source.input (piiStage cfg.pii text).1).1
       = (if (argmaxFirst (semScores cfg sc text)).2 > sc.threshold then
            [semanticReason
              (sc.intents.getD (argmaxFirst (semScores cfg sc text)).1 "")
              (argmaxFirst (semScores cfg sc text)).2]
          else [])) ∧
    (scan cfg Source.input text).semantic_score
       = (argmaxFirst (semScores cfg sc text)).2 ∧
    (argmaxFirst (semScores cfg sc text)).1 < (semScores cfg sc text).length ∧
    (semScores cfg sc text).get? (argmaxFirst (semScores cfg sc text)).1
       = some (argmaxFirst (semScores cfg sc text)).2 ∧
    (∀ j v, j < (argmaxFirst (semScores cfg sc text)).1 →
       (semScores cfg sc text).get? j = some v →
       v < (argmaxFirst (semScores cfg sc text)).2) ∧
    (∀ v ∈ semScores cfg sc text, v ≤ (argmaxFirst (semScores cfg sc text)).2) ∧
    ((argmaxFirst (semScores cfg sc text)).2 > sc.threshold →
      semanticReason (sc.intents.getD (argmaxFirst (semScores cfg sc text)).1 "")
          (argmaxFirst (semScores cfg sc text)).2
        ∈ (scan cfg Source.input text).triggered_rules ∧
      (cfg.shadow_mode = false →
        (validate cfg text).valid = false ∧
        (validate cfg text).action = "blocked")) := by
  have hie : sc.intents.isEmpty = false := by
    cases h : sc.intents with
    | nil => exact absurd h hne
    | cons a l => rfl
  have hmapne : semScores cfg sc text ≠ [] := by
    unfold semScores
    intro h
    exact hne (List.map_eq_nil.mp h)
  have hpair : semTrigPair cfg Source.input (piiStage cfg.pii text).1
      = ((if (argmaxFirst (semScores cfg sc text)).2 > sc.threshold then
            [semanticReason
              (sc.intents.getD (argmaxFirst (semScores cfg sc text)).1 "")
              (argmaxFirst (semScores cfg sc text)).2]
          else []),
         (argmaxFirst (semScores cfg sc text)).2) := by
    unfold semTrigPair
    rw [hsem]
    simp only [if_pos rfl]
    unfold semStage
    rw [hie]
    simp only [Bool.false_eq_true, if_false]
    rfl
  obtain ⟨hs1, hs2, hs3, hs4⟩ := argmaxFirst_spec (semScores cfg sc text) hmapne
  refine ⟨by rw [hpair], by
      show (semTrigPair cfg Source.input (piiStage cfg.pii text).1).2 = _
      rw [hpair], hs1, hs2, hs3, hs4, fun hgt => ?_⟩
  have hmem : semanticReason
      (sc.intents.getD (argmaxFirst (semScores cfg sc text)).1 "")
      (argmaxFirst (semScores cfg sc text)).2
      ∈ (scan cfg Source.input text).triggered_rules := by
    have hx : (scan cfg Source.input text).triggered_rules
        = (((((piiStage cfg.pii text).2
              ++ injTrig cfg Source.input (piiStage cfg.pii text).1)
              ++ topicTrig cfg (piiStage cfg.pii text).1)
              ++ (semTrigPair cfg Source.input (piiStage cfg.pii text).1).1)
              ++ extTrig cfg Source.input (piiStage cfg.pii text).1)
              ++ pluginTrig cfg (piiStage cfg.pii text).1 := rfl
    rw [hx, hpair]
    rw [if_pos hgt]
    simp [List.mem_append]
  refine ⟨hmem, fun hsh => ?_⟩
  have hval : validate cfg text
      = packageResult cfg.shadow_mode (scan cfg Source.input text) := rfl
  have hne' : (scan cfg Source.input text).triggered_rules.isEmpty = false := by
    cases hx : (scan cfg Source.input text).triggered_rules with
    | nil => rw [hx] at hmem; simp at hmem
    | cons a l => rfl
  have hall : ((scan cfg Source.input text).triggered_rules.all
      (fun t => pyStartsWith t "PII:")) = false := by
    by_contra hcon
    have hcon' : ((scan cfg Source.input text).triggered_rules.all
        (fun t => pyStartsWith t "PII:")) = true := by
      cases hb : ((scan cfg Source.input text).triggered_rules.all
          (fun t => pyStartsWith t "PII:")) with
      | false => exact absurd hb hcon
      | true => rfl
    have := List.all_eq_true.mp hcon' _ hmem
    rw [semanticReason_not_pii] at this
    cases this
  rw [hval]
  unfold packageResult
  rw [hne', hall, hsh]
  exact ⟨rfl, rfl⟩

def c5wsc : SemanticCfg :=
  { intents := ["jailbreak attempt"], sim := fun _ _ => (⟨1, 2, by decide, by decide⟩ : ℚ),
    threshold := q45 }

def c5wcfg : EngineConfig :=
  { pii := [], injection := [], topics := [], semantic := some c5wsc,
    externalHub := none, plugins := [], shadow_mode := false }

/-- Witness for the amended C5 at a concrete configuration and input. -/
theorem c5_witness :
    (semTrigPair c5wcfg Source.input (piiStage c5wcfg.pii "hello").1).1
      = (if (argmaxFirst (semScores c5wcfg c5wsc "hello")).2 > c5wsc.threshold then
          [semanticReason
            (c5wsc.intents.getD (argmaxFirst (semScores c5wcfg c5wsc "hello")).1 "")
            (argmaxFirst (semScores c5wcfg c5wsc "hello")).2]
        else []) ∧
    (validate c5wcfg "hello").valid = false ∧
    (validate c5wcfg "hello").action = "blocked" :=
  ⟨(c5_amended c5wcfg c5wsc "hello" rfl (by simp [c5wsc])).1,
   ((c5_amended c5wcfg c5wsc "hello" rfl (by simp [c5wsc])).2.2.2.2.2.2 (by decide)).2 rfl⟩

/-! ## Claim C9: stream re-chunking -/

lemma str_mk_append (l m : List Char) :
    String.mk (l ++ m) = String.mk l ++ String.mk m := by
  apply String.ext
  rw [String.data_append]

lemma str_empty_append (s : String) : "" ++ s = s := by
  apply String.ext
  rw [String.data_append]
  rfl

lemma str_append_empty (s : String) : s ++ "" = s := by
  apply String.ext
  rw [String.data_append]
  simp

/-- `SENTENCE_END.match` splits the buffer exactly: sentence, separator
and remainder concatenate back to the buffer. -/
lemma extractOne_recon : ∀ (b sen sep rest : List Char),
    extractOne b = some (sen, sep, rest) → sen ++ sep ++ rest = b := by
  intro b
  induction b with
  | nil => intro sen sep rest h; simp [extractOne] at h
  | cons c cs ih =>
    intro sen sep rest h
    unfold extractOne at h
    by_cases hp : isPunct c
    · rw [if_pos hp] at h
      cases cs with
      | nil =>
        simp only [Option.some.injEq, Prod.mk.injEq] at h
        obtain ⟨h1, h2, h3⟩ := h
        subst h1; subst h2; subst h3
        rfl
      | cons d ds =>
        dsimp only at h
        by_cases hsp : isSpaceChar d
        · rw [if_pos hsp] at h
          simp only [Option.some.injEq, Prod.mk.injEq] at h
          obtain ⟨h1, h2, h3⟩ := h
          subst h1; subst h2; subst h3
          show c :: ((d :: ds).takeWhile isSpaceChar
              ++ (d :: ds).drop ((d :: ds).takeWhile isSpaceChar).length) = _
          congr 1
          have hpre : (d :: ds).takeWhile isSpaceChar <+: d :: ds :=
            List.takeWhile_prefix _
          have htake : (d :: ds).takeWhile isSpaceChar
              = (d :: ds).take ((d :: ds).takeWhile isSpaceChar).length :=
            List.prefix_iff_eq_take.mp hpre
          conv_rhs => rw [← List.take_append_drop
            ((d :: ds).takeWhile isSpaceChar).length (d :: ds)]
          rw [← htake]
        · rw [if_neg hsp] at h
          cases hrec : extractOne (d :: ds) with
          | none => rw [hrec] at h; simp at h
          | some v =>
            obtain ⟨sen', sep', rest'⟩ := v
            rw [hrec] at h
            simp only [Option.some.injEq, Prod.mk.injEq] at h
            obtain ⟨h1, h2, h3⟩ := h
            subst h1; subst h2; subst h3
            have := ih sen' sep' rest' hrec
            simp only [List.cons_append]
            rw [this]
    · rw [if_neg hp] at h
      cases hrec : extractOne cs with
      | none => rw [hrec] at h; simp at h
      | some v =>
        obtain ⟨sen', sep', rest'⟩ := v
        rw [hrec] at h
        simp only [Option.some.injEq, Prod.mk.injEq] at h
        obtain ⟨h1, h2, h3⟩ := h
        subst h1; subst h2; subst h3
        have := ih sen' sep' rest' hrec
        simp only [List.cons_append]
        rw [this]

/-- When the engine passes every sentence through unchanged, `process`
emits the sentence followed by its separator verbatim. -/
lemma sanitizeEmit_id (e : String → GuardrailResult)
    (h : ∀ s, (e s).valid = true ∧ (e s).sanitized_text = s)
    (sen sep : String) : sanitizeEmit e sen sep = sen ++ sep := by
  unfold sanitizeEmit
  dsimp only
  rw [(h sen).1, (h sen).2]
  rfl

/-- Draining the buffer conserves text when the engine is the identity:
the emitted strings plus the leftover buffer concatenate to the input. -/
lemma drainBuf_conserve (e : String → GuardrailResult)
    (h : ∀ s, (e s).valid = true ∧ (e s).sanitized_text = s) :
    ∀ (fuel : Nat) (b : List Char),
      strConcat (drainBuf e fuel b).1 ++ String.mk (drainBuf e fuel b).2
        = String.mk b := by
  intro fuel
  induction fuel with
  | zero =>
    intro b
    show strConcat [] ++ String.mk b = String.mk b
    rw [show strConcat [] = "" from rfl, str_empty_append]
  | succ n ih =>
    intro b
    unfold drainBuf
    cases hx : extractOne b with
    | none =>
      show strConcat [] ++ String.mk b = String.mk b
      rw [show strConcat [] = "" from rfl, str_empty_append]
    | some v =>
      obtain ⟨sen, sep, rest⟩ := v
      dsimp only
      rw [sanitizeEmit_id e h]
      have hrec := extractOne_recon b sen sep rest hx
      show (String.mk sen ++ String.mk sep
          ++ strConcat (drainBuf e n rest).1)
          ++ String.mk (drainBuf e n rest).2 = String.mk b
      rw [String.append_assoc, ih rest, ← str_mk_append, ← str_mk_append,
        hrec]

/-- A single `process(chunk)` call conserves text for an identity
engine. -/
lemma processChunk_conserve (e : String → GuardrailResult)
    (h : ∀ s, (e s).valid = true ∧ (e s).sanitized_text = s)
    (buf chunk : String) :
    strConcat (processChunk e buf chunk).1 ++ (processChunk e buf chunk).2
      = buf ++ chunk := by
  unfold processChunk
  dsimp only
  rw [drainBuf_conserve e h]

/-- Folding `process` over the chunk list conserves text for an
identity engine. -/
lemma streamFold_conserve (e : String → GuardrailResult)
    (h : ∀ s, (e s).valid = true ∧ (e s).sanitized_text = s) :
    ∀ (chunks : List String) (acc : String × String),
      (chunks.foldl (streamStep e) acc).1
        ++ (chunks.foldl (streamStep e) acc).2
        = acc.1 ++ acc.2 ++ strConcat chunks := by
  intro chunks
  induction chunks with
  | nil =>
    intro acc
    show acc.1 ++ acc.2 = acc.1 ++ acc.2 ++ strConcat []
    rw [show strConcat [] = "" from rfl, str_append_empty]
  | cons c cs ih =>
    intro acc
    rw [List.foldl_cons, ih]
    have hc := processChunk_conserve e h acc.2 c
    show (acc.1 ++ strConcat (processChunk e acc.2 c).1)
        ++ (processChunk e acc.2 c).2 ++ strConcat cs
        = acc.1 ++ acc.2 ++ strConcat (c :: cs)
    rw [String.append_assoc acc.1 (strConcat (processChunk e acc.2 c).1)
      (processChunk e acc.2 c).2, hc,
      show strConcat (c :: cs) = c ++ strConcat cs from rfl,
      ← String.append_assoc acc.1 acc.2 c,
      String.append_assoc (acc.1 ++ acc.2) c (strConcat cs)]

/-- `flush` conserves text for an identity engine. -/
lemma flushBuf_id (e : String → GuardrailResult)
    (h : ∀ s, (e s).valid = true ∧ (e s).sanitized_text = s)
    (buf : String) : strConcat (flushBuf e buf) = buf := by
  unfold flushBuf
  by_cases hb : buf = ""
  · rw [if_pos hb, hb]; rfl
  · rw [if_neg hb]
    dsimp only
    rw [(h buf).1, (h buf).2]
    show buf ++ "" = buf
    exact str_append_empty buf

/-- Engine configuration used for the C9 counterexample: a single
blocked topic, everything else disabled. -/
def c9cfg : EngineConfig :=
  { pii := [], injection := [], topics := ["secret"], semantic := none,
    externalHub := none, plugins := [], shadow_mode := false }

/-- C9 counterexample: stream re-chunking invariance fails.  The two
chunkings `["Done.", " secret"]` and `["Done. secret"]` carry the same
bytes, yet the concatenated emissions differ: when the chunk ends right
at the punctuation mark, `SENTENCE_END` matches with the empty
end-of-string separator, so the whitespace that arrives in the next
chunk stays attached to the following (blocked) sentence and the space
after `Done.` is dropped from the emitted text. -/
theorem c9_counterexample :
    strConcat ["Done.", " secret"] = strConcat ["Done. secret"]
    ∧ runStream (validate_output c9cfg) ["Done.", " secret"]
      ≠ runStream (validate_output c9cfg) ["Done. secret"] := by
  constructor
  · rfl
  · decide

/-- C9 (amended): re-chunking invariance does hold whenever the engine
passes every sentence through as valid and unchanged (in particular for
a configuration with no detectors enabled): the concatenation of
everything `process` and `flush` yield equals the concatenation of the
chunks, independently of the chunk boundaries. -/
theorem c9_amended (e : String → GuardrailResult) (chunks : List String)
    (h : ∀ s, (e s).valid = true ∧ (e s).sanitized_text = s) :
    runStream e chunks = strConcat chunks := by
  have hf := streamFold_conserve e h chunks ("", "")
  show (chunks.foldl (streamStep e) ("", "")).1
      ++ strConcat (flushBuf e (chunks.foldl (streamStep e) ("", "")).2)
      = strConcat chunks
  rw [flushBuf_id e h, hf]
  show "" ++ "" ++ strConcat chunks = strConcat chunks
  rw [str_empty_append, str_empty_append]

/-- Engine configuration with every detector disabled; its
`validate_output` returns every sentence unchanged. -/
def c9idcfg : EngineConfig :=
  { pii := [], injection := [], topics := [], semantic := none,
    externalHub := none, plugins := [], shadow_mode := false }

/-- Witness for the amended C9 at a concrete chunking of a concrete
stream, through the engine with all detectors disabled. -/
theorem c9_witness :
    runStream (validate_output c9idcfg) ["Hello. ", "wo", "rld."]
      = strConcat ["Hello. ", "wo", "rld."] :=
  c9_amended (validate_output c9idcfg) ["Hello. ", "wo", "rld."]
    (fun _ => ⟨rfl, rfl⟩)

/-! ## Claim C8: idempotence of PII redaction

The three `\b`-anchored digit patterns (PHONE, SSN, CREDIT_CARD) share the
properties bundled in `DigitPat` below; from them we prove that one
substitution pass leaves no match of any such pattern, so a second pass
is the identity.  The EMAIL pattern (no `\b`) lacks these properties, and
with it a configuration can break idempotence: replacing an email that
directly abuts digits turns the word character before the digits into
`>`, creating a fresh `\b` that lets PHONE fire on the second pass. -/

/-- No match of `m` at any position of `s`, where `w` is the word-status
of the character just before `s` (threading the `\b` context exactly as
the scan loop does). -/
def noMatch (m : Bool → List Char → Option Nat) : Bool → List Char → Prop
  | _, [] => True
  | w, c :: cs => m w (c :: cs) = none ∧ noMatch m (isWordChar c) cs

/-- The interface shared by the `\b`-anchored digit patterns: they fire
only after a non-word character, consume at least one character, start
and end on a digit, never consume `<`, check a trailing `\b`, and their
verdict at a position depends only on the characters up to the match
length (so a match transfers to any string agreeing there). -/
structure DigitPat (m : Bool → List Char → Option Nat) : Prop where
  p1 : ∀ s, m true s = none
  pos : ∀ w s ℓ, m w s = some ℓ → 1 ≤ ℓ
  head : ∀ w s ℓ, m w s = some ℓ → ∃ c, s.get? 0 = some c ∧ c.isDigit = true
  safe : ∀ w s ℓ, m w s = some ℓ → ∀ i, i < ℓ → ∃ c, s.get? i = some c ∧ c ≠ '<'
  last : ∀ w s ℓ, m w s = some ℓ → ∃ c, s.get? (ℓ - 1) = some c ∧ c.isDigit = true
  trail : ∀ w s ℓ, m w s = some ℓ → wordAt s ℓ = false
  stable : ∀ s t ℓ, m false s = some ℓ → (∀ i, i ≤ ℓ → t.get? i = s.get? i) →
    m false t ≠ none

lemma digit_word {c : Char} (h : c.isDigit = true) : isWordChar c = true := by
  unfold isWordChar
  rw [h]
  simp

lemma nonword_nondigit {c : Char} (h : isWordChar c = false) :
    c.isDigit = false := by
  by_cases hd : c.isDigit
  · rw [digit_word hd] at h; exact absurd h (by simp)
  · simpa using hd

lemma get?_eq_of_take_eq {s t : List Char} {d : Nat}
    (h : s.take d = t.take d) : ∀ i, i < d → s.get? i = t.get? i := by
  intro i hi
  have hc := congrArg (fun l => List.get? l i) h
  dsimp only at hc
  rwa [List.get?_take hi, List.get?_take hi] at hc

lemma chkRun_congr {p : Char → Bool} {s t : List Char} {i n : Nat}
    (h : ∀ j, j < n → t.get? (i + j) = s.get? (i + j)) :
    chkRun p s i n = true → chkRun p t i n = true := by
  intro hs
  unfold chkRun at hs ⊢
  rw [List.all_eq_true] at hs ⊢
  intro j hj
  have hj' := List.mem_range.mp hj
  rw [h j hj']
  exact hs j hj

lemma sepChoices_congr {p : Char → Bool} {s t : List Char} {i : Nat}
    (h : t.get? i = s.get? i) : sepChoices p t i = sepChoices p s i := by
  unfold sepChoices
  rw [h]

lemma wordAt_congr {s t : List Char} {i : Nat}
    (h : t.get? i = s.get? i) : wordAt t i = wordAt s i := by
  unfold wordAt
  rw [h]

lemma ssnMatchAt_spec {pw : Bool} {s : List Char} {ℓ : Nat}
    (h : ssnMatchAt pw s = some ℓ) :
    pw = false ∧ ℓ = 11 ∧ chkRun Char.isDigit s 0 3 = true ∧
    s.get? 3 = some '-' ∧ chkRun Char.isDigit s 4 2 = true ∧
    s.get? 6 = some '-' ∧ chkRun Char.isDigit s 7 4 = true ∧
    wordAt s 11 = false := by
  unfold ssnMatchAt at h
  by_cases hpw : pw
  · simp [hpw] at h
  · rw [if_neg hpw] at h
    by_cases hc : (chkRun Char.isDigit s 0 3 && s.get? 3 = some '-'
        && chkRun Char.isDigit s 4 2 && s.get? 6 = some '-'
        && chkRun Char.isDigit s 7 4 && !wordAt s 11)
    · rw [if_pos hc] at h
      simp only [Bool.and_eq_true, decide_eq_true_eq,
        Bool.not_eq_true'] at hc
      obtain ⟨⟨⟨⟨⟨h1, h2⟩, h3⟩, h4⟩, h5⟩, h6⟩ := hc
      exact ⟨by simpa using hpw, (Option.some.inj h).symm,
        h1, h2, h3, h4, h5, h6⟩
    · rw [if_neg hc] at h; simp at h

lemma digitPat_ssn : DigitPat ssnMatchAt := by
  refine ⟨?_, ?_, ?_, ?_, ?_, ?_, ?_⟩
  · intro s; simp [ssnMatchAt]
  · intro w s ℓ h
    obtain ⟨-, hℓ, -⟩ := ssnMatchAt_spec h
    omega
  · intro w s ℓ h
    obtain ⟨-, -, h1, -⟩ := ssnMatchAt_spec h
    obtain ⟨c, hc, hd⟩ := chkRun_prop h1 0 (by omega)
    exact ⟨c, hc, hd⟩
  · intro w s ℓ h
    exact ssn_consumed_safe h
  · intro w s ℓ h
    obtain ⟨-, hℓ, -, -, -, -, h5, -⟩ := ssnMatchAt_spec h
    obtain ⟨c, hc, hd⟩ := chkRun_prop h5 3 (by omega)
    subst hℓ
    exact ⟨c, hc, hd⟩
  · intro w s ℓ h
    obtain ⟨-, hℓ, -, -, -, -, -, h6⟩ := ssnMatchAt_spec h
    subst hℓ
    exact h6
  · intro s t ℓ h hag
    obtain ⟨-, hℓ, h1, h2, h3, h4, h5, h6⟩ := ssnMatchAt_spec h
    subst hℓ
    have c1 : chkRun Char.isDigit t 0 3 = true :=
      chkRun_congr (fun j hj => hag (0 + j) (by omega)) h1
    have c2 : t.get? 3 = some '-' := by rw [hag 3 (by omega)]; exact h2
    have c3 : chkRun Char.isDigit t 4 2 = true :=
      chkRun_congr (fun j hj => hag (4 + j) (by omega)) h3
    have c4 : t.get? 6 = some '-' := by rw [hag 6 (by omega)]; exact h4
    have c5 : chkRun Char.isDigit t 7 4 = true :=
      chkRun_congr (fun j hj => hag (7 + j) (by omega)) h5
    have c6 : wordAt t 11 = false := by
      rw [wordAt_congr (hag 11 (by omega))]; exact h6
    have hcond : (chkRun Char.isDigit t 0 3 && t.get? 3 = some '-'
        && chkRun Char.isDigit t 4 2 && t.get? 6 = some '-'
        && chkRun Char.isDigit t 7 4 && !wordAt t 11) = true := by
      simp only [Bool.and_eq_true, decide_eq_true_eq, Bool.not_eq_true']
      exact ⟨⟨⟨⟨⟨c1, c2⟩, c3⟩, c4⟩, c5⟩, c6⟩
    unfold ssnMatchAt
    rw [if_neg (by simp)]
    rw [if_pos hcond]
    simp

lemma sepChoices_self (p : Char → Bool) (s : List Char) (i : Nat) :
    i ∈ sepChoices p s i := by
  unfold sepChoices
  cases s.get? i with
  | none => exact List.mem_singleton.mpr rfl
  | some c =>
    dsimp only
    by_cases hp : p c
    · rw [if_pos hp]; simp
    · rw [if_neg hp]; simp

lemma sepChoices_succ {p : Char → Bool} {s : List Char} {i : Nat} {c : Char}
    (hc : s.get? i = some c) (hp : p c = true) :
    i + 1 ∈ sepChoices p s i := by
  unfold sepChoices
  rw [hc]
  dsimp only
  rw [if_pos hp]
  simp

lemma head?_ne_none_of_mem {α : Type} {l : List α} {a : α} (h : a ∈ l) :
    l.head? ≠ none := by
  cases l with
  | nil => exact absurd h (List.not_mem_nil a)
  | cons x xs => simp

lemma digitPat_phone : DigitPat phoneMatchAt := by
  refine ⟨?_, ?_, ?_, ?_, ?_, ?_, ?_⟩
  · intro s; simp [phoneMatchAt]
  · intro w s ℓ h
    obtain ⟨-, -, i, j, -, -, -, -, -, hℓ⟩ := phoneMatchAt_spec h
    omega
  · intro w s ℓ h
    obtain ⟨-, h1, -⟩ := phoneMatchAt_spec h
    obtain ⟨c, hc, hd⟩ := chkRun_prop h1 0 (by omega)
    exact ⟨c, hc, hd⟩
  · intro w s ℓ h
    exact phone_consumed_safe h
  · intro w s ℓ h
    obtain ⟨-, -, i, j, -, -, -, h3, -, hℓ⟩ := phoneMatchAt_spec h
    obtain ⟨c, hc, hd⟩ := chkRun_prop h3 3 (by omega)
    have he : ℓ - 1 = j + 3 := by omega
    rw [he]
    exact ⟨c, hc, hd⟩
  · intro w s ℓ h
    obtain ⟨-, -, i, j, -, -, -, -, h4, hℓ⟩ := phoneMatchAt_spec h
    subst hℓ
    exact h4
  · intro s t ℓ h hag
    obtain ⟨-, h1, i, j, hi, h2, hj, h3, h4, hℓ⟩ := phoneMatchAt_spec h
    have hi4 : i ≤ 4 := by rcases hi with h' | ⟨h', -⟩ <;> omega
    have hj4 : j ≤ i + 4 := by rcases hj with h' | ⟨h', -⟩ <;> omega
    have hji : i + 3 ≤ j := by rcases hj with h' | ⟨h', -⟩ <;> omega
    subst hℓ
    have c1 : chkRun Char.isDigit t 0 3 = true :=
      chkRun_congr (fun k hk => hag (0 + k) (by omega)) h1
    have c2 : chkRun Char.isDigit t i 3 = true :=
      chkRun_congr (fun k hk => hag (i + k) (by omega)) h2
    have c3 : chkRun Char.isDigit t j 4 = true :=
      chkRun_congr (fun k hk => hag (j + k) (by omega)) h3
    have c4 : wordAt t (j + 4) = false := by
      rw [wordAt_congr (hag (j + 4) (by omega))]; exact h4
    have hsep3 : sepChoices isPhoneSep t 3 = sepChoices isPhoneSep s 3 :=
      sepChoices_congr (hag 3 (by omega))
    have hsepi : sepChoices isPhoneSep t (i + 3)
        = sepChoices isPhoneSep s (i + 3) :=
      sepChoices_congr (hag (i + 3) (by omega))
    have hmi : i ∈ sepChoices isPhoneSep s 3 := by
      rcases hi with h' | ⟨h', c, hc, hp⟩
      · subst h'; exact sepChoices_self isPhoneSep s 3
      · subst h'; exact sepChoices_succ hc hp
    have hmj : j ∈ sepChoices isPhoneSep s (i + 3) := by
      rcases hj with h' | ⟨h', c, hc, hp⟩
      · subst h'; exact sepChoices_self isPhoneSep s (i + 3)
      · subst h'; exact sepChoices_succ hc hp
    unfold phoneMatchAt
    rw [if_neg (by simp), if_pos c1]
    exact head?_ne_none_of_mem (List.mem_flatMap.mpr ⟨i,
      by rw [hsep3]; exact hmi, by
        rw [if_pos c2]
        exact List.mem_filterMap.mpr ⟨j,
          by rw [hsepi]; exact hmj,
          by rw [if_pos (show (chkRun Char.isDigit t j 4
            && !wordAt t (j + 4)) = true by rw [c3, c4]; rfl)]⟩⟩)

lemma digitPat_cc : DigitPat ccMatchAt := by
  refine ⟨?_, ?_, ?_, ?_, ?_, ?_, ?_⟩
  · intro s; simp [ccMatchAt]
  · intro w s ℓ h
    obtain ⟨-, -, i, j, k, -, -, -, -, -, -, -, hℓ⟩ := ccMatchAt_spec h
    omega
  · intro w s ℓ h
    obtain ⟨-, h1, -⟩ := ccMatchAt_spec h
    obtain ⟨c, hc, hd⟩ := chkRun_prop h1 0 (by omega)
    exact ⟨c, hc, hd⟩
  · intro w s ℓ h
    exact cc_consumed_safe h
  · intro w s ℓ h
    obtain ⟨-, -, i, j, k, -, -, -, -, -, h5, -, hℓ⟩ := ccMatchAt_spec h
    obtain ⟨c, hc, hd⟩ := chkRun_prop h5 3 (by omega)
    have he : ℓ - 1 = k + 3 := by omega
    rw [he]
    exact ⟨c, hc, hd⟩
  · intro w s ℓ h
    obtain ⟨-, -, i, j, k, -, -, -, -, -, -, h6, hℓ⟩ := ccMatchAt_spec h
    subst hℓ
    exact h6
  · intro s t ℓ h hag
    obtain ⟨-, h1, i, j, k, hi, h2, hj, h3, hk, h4, h5, hℓ⟩ := ccMatchAt_spec h
    have hi5 : 4 ≤ i ∧ i ≤ 5 := by rcases hi with h' | ⟨h', -⟩ <;> omega
    have hj5 : i + 4 ≤ j ∧ j ≤ i + 5 := by
      rcases hj with h' | ⟨h', -⟩ <;> omega
    have hk5 : j + 4 ≤ k ∧ k ≤ j + 5 := by
      rcases hk with h' | ⟨h', -⟩ <;> omega
    subst hℓ
    have c1 : chkRun Char.isDigit t 0 4 = true :=
      chkRun_congr (fun m hm => hag (0 + m) (by omega)) h1
    have c2 : chkRun Char.isDigit t i 4 = true :=
      chkRun_congr (fun m hm => hag (i + m) (by omega)) h2
    have c3 : chkRun Char.isDigit t j 4 = true :=
      chkRun_congr (fun m hm => hag (j + m) (by omega)) h3
    have c4 : chkRun Char.isDigit t k 4 = true :=
      chkRun_congr (fun m hm => hag (k + m) (by omega)) h4
    have c5 : wordAt t (k + 4) = false := by
      rw [wordAt_congr (hag (k + 4) (by omega))]; exact h5
    have hsep4 : sepChoices isCcSep t 4 = sepChoices isCcSep s 4 :=
      sepChoices_congr (hag 4 (by omega))
    have hsepi : sepChoices isCcSep t (i + 4) = sepChoices isCcSep s (i + 4) :=
      sepChoices_congr (hag (i + 4) (by omega))
    have hsepj : sepChoices isCcSep t (j + 4) = sepChoices isCcSep s (j + 4) :=
      sepChoices_congr (hag (j + 4) (by omega))
    have hmi : i ∈ sepChoices isCcSep s 4 := by
      rcases hi with h' | ⟨h', c, hc, hp⟩
      · subst h'; exact sepChoices_self isCcSep s 4
      · subst h'; exact sepChoices_succ hc hp
    have hmj : j ∈ sepChoices isCcSep s (i + 4) := by
      rcases hj with h' | ⟨h', c, hc, hp⟩
      · subst h'; exact sepChoices_self isCcSep s (i + 4)
      · subst h'; exact sepChoices_succ hc hp
    have hmk : k ∈ sepChoices isCcSep s (j + 4) := by
      rcases hk with h' | ⟨h', c, hc, hp⟩
      · subst h'; exact sepChoices_self isCcSep s (j + 4)
      · subst h'; exact sepChoices_succ hc hp
    unfold ccMatchAt
    rw [if_neg (by simp), if_pos c1]
    exact head?_ne_none_of_mem (List.mem_flatMap.mpr ⟨i,
      by rw [hsep4]; exact hmi, by
        rw [if_pos c2]
        exact List.mem_flatMap.mpr ⟨j,
          by rw [hsepi]; exact hmj, by
            rw [if_pos c3]
            exact List.mem_filterMap.mpr ⟨k,
              by rw [hsepj]; exact hmk,
              by rw [if_pos (show (chkRun Char.isDigit t k 4
                && !wordAt t (k + 4)) = true by rw [c4, c5]; rfl)]⟩⟩⟩)

/-- Only the head clause of `noMatch` depends on the context bit, and it
holds vacuously when the first character is not a digit. -/
lemma noMatch_weaken (m : Bool → List Char → Option Nat)
    (hHead : ∀ w s ℓ, m w s = some ℓ → ∃ c, s.get? 0 = some c ∧ c.isDigit = true)
    {t : List Char}
    (hhd : ∀ c, t.head? = some c → c.isDigit = false)
    {w : Bool} (h : noMatch m w t) (w' : Bool) : noMatch m w' t := by
  cases t with
  | nil => trivial
  | cons c cs =>
    obtain ⟨-, htail⟩ := h
    refine ⟨?_, htail⟩
    cases hm : m w' (c :: cs) with
    | none => rfl
    | some ℓ =>
      obtain ⟨c2, hc2, hd⟩ := hHead w' (c :: cs) ℓ hm
      have he : c = c2 := by simpa using hc2
      subst he
      have hnd := hhd c rfl
      rw [hnd] at hd
      exact absurd hd (by simp)

/-- A digit-headed matcher finds nothing inside a digit-free token. -/
lemma noMatch_token_append (m : Bool → List Char → Option Nat)
    (hHead : ∀ w s ℓ, m w s = some ℓ → ∃ c, s.get? 0 = some c ∧ c.isDigit = true) :
    ∀ (tok : List Char), (∀ ch ∈ tok, ch.isDigit = false) →
    ∀ (tail : List Char), (∀ w', noMatch m w' tail) →
    ∀ w, noMatch m w (tok ++ tail) := by
  intro tok
  induction tok with
  | nil => intro _ tail htail w; exact htail w
  | cons c ts ih =>
    intro hch tail htail w
    refine ⟨?_, ?_⟩
    · cases hm : m w (c :: (ts ++ tail)) with
      | none => rfl
      | some ℓ =>
        obtain ⟨c2, hc2, hd⟩ := hHead w _ ℓ hm
        have he : c = c2 := by simpa using hc2
        subst he
        rw [hch c (List.mem_cons_self c ts)] at hd
        exact absurd hd (by simp)
    · exact ih (fun x hx => hch x (List.mem_cons_of_mem c hx)) tail htail
        (isWordChar c)

/-- `noMatch` restricts to any suffix, with the threaded context. -/
lemma noMatch_drop (m : Bool → List Char → Option Nat) :
    ∀ (n : Nat) (s : List Char) (w : Bool), noMatch m w s →
      noMatch m (match n with | 0 => w | n' + 1 => wordAt s n') (s.drop n) := by
  intro n
  induction n with
  | zero => intro s w h; exact h
  | succ n ih =>
    intro s w h
    cases s with
    | nil => trivial
    | cons c cs =>
      obtain ⟨-, htail⟩ := h
      have hrec := ih cs (isWordChar c) htail
      cases n with
      | zero => exact hrec
      | succ m => exact hrec

/-- If the scan over the whole string found nothing, the matcher fails
at every position. -/
lemma scanSub_false_noMatch (m : Bool → List Char → Option Nat)
    (tok : List Char) (hpos : ∀ w s ℓ, m w s = some ℓ → 1 ≤ ℓ) :
    ∀ (fuel : Nat) (w : Bool) (s : List Char), s.length ≤ fuel →
      (scanSub m tok fuel w s).2 = false → noMatch m w s := by
  intro fuel
  induction fuel with
  | zero =>
    intro w s hlen _
    have hnil : s = [] := List.eq_nil_of_length_eq_zero (by omega)
    subst hnil; trivial
  | succ n ih =>
    intro w s hlen hfalse
    cases s with
    | nil => trivial
    | cons c cs =>
      cases hm : m w (c :: cs) with
      | some ℓ =>
        cases ℓ with
        | zero => exact absurd (hpos w _ 0 hm) (by omega)
        | succ l =>
          exfalso
          unfold scanSub at hfalse
          rw [hm] at hfalse
          simp at hfalse
      | none =>
        unfold scanSub at hfalse
        rw [hm] at hfalse
        dsimp only at hfalse
        refine ⟨hm, ih (isWordChar c) cs ?_ hfalse⟩
        simp only [List.length_cons] at hlen
        omega

/-- If the scan found nothing it also rewrote nothing. -/
lemma scanSub_false_id (m : Bool → List Char → Option Nat) (tok : List Char) :
    ∀ (fuel : Nat) (w : Bool) (s : List Char),
      (scanSub m tok fuel w s).2 = false → (scanSub m tok fuel w s).1 = s := by
  intro fuel
  induction fuel with
  | zero => intro w s _; rfl
  | succ n ih =>
    intro w s hfalse
    cases s with
    | nil => rfl
    | cons c cs =>
      cases hm : m w (c :: cs) with
      | some ℓ =>
        cases ℓ with
        | zero =>
          unfold scanSub at hfalse ⊢
          rw [hm] at hfalse ⊢
          dsimp only at hfalse ⊢
          rw [ih (isWordChar c) cs hfalse]
        | succ l =>
          exfalso
          unfold scanSub at hfalse
          rw [hm] at hfalse
          simp at hfalse
      | none =>
        unfold scanSub at hfalse ⊢
        rw [hm] at hfalse ⊢
        dsimp only at hfalse ⊢
        rw [ih (isWordChar c) cs hfalse]

/-- A match-free string passes through the scan untouched. -/
lemma scanSub_id_of_noMatch (m : Bool → List Char → Option Nat)
    (tok : List Char) :
    ∀ (fuel : Nat) (w : Bool) (s : List Char), noMatch m w s →
      scanSub m tok fuel w s = (s, false) := by
  intro fuel
  induction fuel with
  | zero => intro w s _; rfl
  | succ n ih =>
    intro w s h
    cases s with
    | nil => rfl
    | cons c cs =>
      obtain ⟨hm, htail⟩ := h
      unfold scanSub
      rw [hm]
      dsimp only
      rw [ih (isWordChar c) cs htail]

/-- With a pattern that never fires after a word character, the scan in
word context keeps the first character. -/
lemma scanSub_head_true (m : Bool → List Char → Option Nat) (tok : List Char)
    (hp1 : ∀ s, m true s = none) :
    ∀ (fuel : Nat) (s : List Char),
      (scanSub m tok fuel true s).1.head? = s.head? := by
  intro fuel s
  cases fuel with
  | zero => rfl
  | succ n =>
    cases s with
    | nil => rfl
    | cons c cs =>
      unfold scanSub
      rw [hp1 (c :: cs)]
      rfl

/-- Structure of the scan's output: either nothing was replaced, or the
output agrees with the input up to the first replacement, where the
output has the token's `<` while the input has the digit that headed the
match, and the scan context just before that position was non-word. -/
lemma scanSub_struct (m : Bool → List Char → Option Nat) (tok : List Char)
    (htok : tok.head? = some '<')
    (hp1 : ∀ s, m true s = none)
    (hHead : ∀ w s ℓ, m w s = some ℓ → ∃ c, s.get? 0 = some c ∧ c.isDigit = true) :
    ∀ (fuel : Nat) (w : Bool) (s : List Char),
      (scanSub m tok fuel w s).1 = s ∨
      ∃ d, (scanSub m tok fuel w s).1.take d = s.take d ∧
        (scanSub m tok fuel w s).1.get? d = some '<' ∧
        (∃ ch, s.get? d = some ch ∧ ch.isDigit = true) ∧
        (d = 0 → w = false) ∧
        (∀ d', d = d' + 1 → ∃ pc, s.get? d' = some pc ∧ isWordChar pc = false) := by
  intro fuel
  induction fuel with
  | zero => intro w s; exact .inl rfl
  | succ n ih =>
    intro w s
    cases s with
    | nil => exact .inl rfl
    | cons c cs =>
      cases hm : m w (c :: cs) with
      | some ℓ =>
        cases ℓ with
        | zero =>
          rcases ih (isWordChar c) cs with hrec | ⟨d, h1, h2, h3, h4, h5⟩
          · left
            unfold scanSub
            rw [hm]
            dsimp only
            rw [hrec]
          · right
            refine ⟨d + 1, ?_, ?_, ?_, ?_, ?_⟩
            · unfold scanSub
              rw [hm]
              dsimp only
              rw [List.take_succ_cons, List.take_succ_cons, h1]
            · unfold scanSub
              rw [hm]
              dsimp only
              exact h2
            · exact h3
            · intro hc; exact absurd hc (by omega)
            · intro d' he
              have hdd : d' = d := by omega
              subst hdd
              cases d' with
              | zero => exact ⟨c, rfl, h4 rfl⟩
              | succ e => exact h5 e rfl
        | succ l =>
          right
          refine ⟨0, ?_, ?_, ?_, ?_, ?_⟩
          · rfl
          · unfold scanSub
            rw [hm]
            dsimp only
            cases tok with
            | nil => simp at htok
            | cons t ts =>
              have ht : t = '<' := by simpa using htok
              subst ht
              rfl
          · exact hHead w (c :: cs) (l + 1) hm
          · intro _
            cases w with
            | false => rfl
            | true => rw [hp1] at hm; exact absurd hm (by simp)
          · intro d' he; exact absurd he (by omega)
      | none =>
        rcases ih (isWordChar c) cs with hrec | ⟨d, h1, h2, h3, h4, h5⟩
        · left
          unfold scanSub
          rw [hm]
          dsimp only
          rw [hrec]
        · right
          refine ⟨d + 1, ?_, ?_, ?_, ?_, ?_⟩
          · unfold scanSub
            rw [hm]
            dsimp only
            rw [List.take_succ_cons, List.take_succ_cons, h1]
          · unfold scanSub
            rw [hm]
            dsimp only
            exact h2
          · exact h3
          · intro hc; exact absurd hc (by omega)
          · intro d' he
            have hdd : d' = d := by omega
            subst hdd
            cases d' with
            | zero => exact ⟨c, rfl, h4 rfl⟩
            | succ e => exact h5 e rfl

/-- A `\b`-anchored digit pattern that has no match in the input has none
in the scan's output either: the only context changes sit at token edges,
which are non-word on both sides. -/
lemma scanSub_no_new (m1 m2 : Bool → List Char → Option Nat)
    (tok1 : List Char) (htok : tok1.head? = some '<')
    (hp1 : ∀ s, m1 true s = none)
    (hHead1 : ∀ w s ℓ, m1 w s = some ℓ → ∃ c, s.get? 0 = some c ∧ c.isDigit = true)
    (hD2 : DigitPat m2) :
    ∀ (fuel : Nat) (w : Bool) (s : List Char), m2 w s = none →
      m2 w (scanSub m1 tok1 fuel w s).1 = none := by
  intro fuel w s hnone
  rcases scanSub_struct m1 tok1 htok hp1 hHead1 fuel w s with
    heq | ⟨d, h1, h2, h3, h4, h5⟩
  · rw [heq]; exact hnone
  · cases w with
    | true => exact hD2.p1 _
    | false =>
      cases hmo : m2 false (scanSub m1 tok1 fuel false s).1 with
      | none => rfl
      | some ℓ =>
        exfalso
        have hpos := hD2.pos false _ ℓ hmo
        have hld : ℓ ≤ d := by
          by_contra hlt
          push_neg at hlt
          obtain ⟨c, hc, hne⟩ := hD2.safe false _ ℓ hmo d hlt
          rw [h2] at hc
          exact hne (Option.some.inj hc).symm
        rcases Nat.lt_or_ge ℓ d with hcase | hcase
        · have hag : ∀ i, i ≤ ℓ → s.get? i = (scanSub m1 tok1 fuel false s).1.get? i := by
            intro i hi
            exact (get?_eq_of_take_eq h1 i (by omega)).symm
          exact hD2.stable _ s ℓ hmo hag hnone
        · have hed : ℓ = d := by omega
          subst hed
          obtain ⟨cl, hcl, hdl⟩ := hD2.last false _ ℓ hmo
          obtain ⟨pc, hpc, hpw⟩ := h5 (ℓ - 1) (by omega)
          have hgo : (scanSub m1 tok1 fuel false s).1.get? (ℓ - 1)
              = s.get? (ℓ - 1) := get?_eq_of_take_eq h1 _ (by omega)
          rw [hgo, hpc] at hcl
          have hcp : pc = cl := Option.some.inj hcl
          subst hcp
          rw [digit_word hdl] at hpw
          exact absurd hpw (by simp)

lemma wordAt_eq_of_get? {s : List Char} {i : Nat} {c : Char}
    (h : s.get? i = some c) : wordAt s i = isWordChar c := by
  unfold wordAt
  rw [h]

lemma word_false_get? {s : List Char} {i : Nat} {ch : Char}
    (hw : wordAt s i = false) (h : s.get? i = some ch) :
    isWordChar ch = false := by
  unfold wordAt at hw
  rw [h] at hw
  exact hw

lemma head?_drop_eq (l : List Char) (n : Nat) : (l.drop n).head? = l.get? n := by
  induction n generalizing l with
  | zero => cases l <;> rfl
  | succ n ih =>
    cases l with
    | nil => rfl
    | cons c cs => exact ih cs

/-- The scan's own pattern has no match left in the scan's output. -/
lemma scanSub_self_noMatch (m : Bool → List Char → Option Nat)
    (tok : List Char) (hD : DigitPat m) (htok : tok.head? = some '<')
    (htokch : ∀ ch ∈ tok, ch.isDigit = false) :
    ∀ (fuel : Nat) (w : Bool) (s : List Char), s.length ≤ fuel →
      noMatch m w (scanSub m tok fuel w s).1 := by
  intro fuel
  induction fuel with
  | zero =>
    intro w s hlen
    have hnil : s = [] := List.eq_nil_of_length_eq_zero (by omega)
    subst hnil
    trivial
  | succ n ih =>
    intro w s hlen
    cases s with
    | nil => trivial
    | cons c cs =>
      cases hm : m w (c :: cs) with
      | some ℓ =>
        cases ℓ with
        | zero => exact absurd (hD.pos w _ 0 hm) (by omega)
        | succ l =>
          have hlast : wordAt (c :: cs) l = true := by
            obtain ⟨cl, hcl, hdl⟩ := hD.last w _ (l + 1) hm
            rw [Nat.add_sub_cancel] at hcl
            rw [wordAt_eq_of_get? hcl]
            exact digit_word hdl
          have htr : wordAt (c :: cs) (l + 1) = false := hD.trail w _ (l + 1) hm
          have hlen2 : ((c :: cs).drop (l + 1)).length ≤ n := by
            rw [List.length_drop]
            simp only [List.length_cons] at hlen ⊢
            omega
          have hbase : noMatch m true
              (scanSub m tok n true ((c :: cs).drop (l + 1))).1 :=
            ih true _ hlen2
          have hhd : ∀ ch,
              (scanSub m tok n true ((c :: cs).drop (l + 1))).1.head? = some ch →
              ch.isDigit = false := by
            intro ch hch
            rw [scanSub_head_true m tok hD.p1 n _] at hch
            rw [head?_drop_eq] at hch
            exact nonword_nondigit (word_false_get? htr hch)
          unfold scanSub
          rw [hm]
          dsimp only
          rw [hlast]
          exact noMatch_token_append m hD.head tok htokch _
            (fun w' => noMatch_weaken m hD.head hhd hbase w') w
      | none =>
        unfold scanSub
        rw [hm]
        dsimp only
        refine ⟨?_, ih (isWordChar c) cs
          (by simp only [List.length_cons] at hlen; omega)⟩
        have hnew := scanSub_no_new m m tok htok hD.p1 hD.head hD
          (n + 1) w (c :: cs) hm
        unfold scanSub at hnew
        rw [hm] at hnew
        dsimp only at hnew
        exact hnew

/-- Scanning with one `\b`-anchored digit pattern preserves the absence
of matches of any other such pattern. -/
lemma scanSub_pres_noMatch (m1 m2 : Bool → List Char → Option Nat)
    (tok1 : List Char) (hD1 : DigitPat m1) (hD2 : DigitPat m2)
    (htok : tok1.head? = some '<')
    (htokch : ∀ ch ∈ tok1, ch.isDigit = false) :
    ∀ (fuel : Nat) (w : Bool) (s : List Char), s.length ≤ fuel →
      noMatch m2 w s → noMatch m2 w (scanSub m1 tok1 fuel w s).1 := by
  intro fuel
  induction fuel with
  | zero =>
    intro w s hlen _
    have hnil : s = [] := List.eq_nil_of_length_eq_zero (by omega)
    subst hnil
    trivial
  | succ n ih =>
    intro w s hlen h
    cases s with
    | nil => trivial
    | cons c cs =>
      obtain ⟨hm2, htail⟩ := h
      cases hm : m1 w (c :: cs) with
      | some ℓ =>
        cases ℓ with
        | zero => exact absurd (hD1.pos w _ 0 hm) (by omega)
        | succ l =>
          have hlast : wordAt (c :: cs) l = true := by
            obtain ⟨cl, hcl, hdl⟩ := hD1.last w _ (l + 1) hm
            rw [Nat.add_sub_cancel] at hcl
            rw [wordAt_eq_of_get? hcl]
            exact digit_word hdl
          have htr : wordAt (c :: cs) (l + 1) = false := hD1.trail w _ (l + 1) hm
          have hlen2 : ((c :: cs).drop (l + 1)).length ≤ n := by
            rw [List.length_drop]
            simp only [List.length_cons] at hlen ⊢
            omega
          have hdrop : noMatch m2 (wordAt (c :: cs) l) ((c :: cs).drop (l + 1)) :=
            noMatch_drop m2 (l + 1) (c :: cs) w ⟨hm2, htail⟩
          rw [hlast] at hdrop
          have hbase : noMatch m2 true
              (scanSub m1 tok1 n true ((c :: cs).drop (l + 1))).1 :=
            ih true _ hlen2 hdrop
          have hhd : ∀ ch,
              (scanSub m1 tok1 n true ((c :: cs).drop (l + 1))).1.head? = some ch →
              ch.isDigit = false := by
            intro ch hch
            rw [scanSub_head_true m1 tok1 hD1.p1 n _] at hch
            rw [head?_drop_eq] at hch
            exact nonword_nondigit (word_false_get? htr hch)
          unfold scanSub
          rw [hm]
          dsimp only
          rw [hlast]
          exact noMatch_token_append m2 hD2.head tok1 htokch _
            (fun w' => noMatch_weaken m2 hD2.head hhd hbase w') w
      | none =>
        unfold scanSub
        rw [hm]
        dsimp only
        refine ⟨?_, ih (isWordChar c) cs
          (by simp only [List.length_cons] at hlen; omega) htail⟩
        have hnew := scanSub_no_new m1 m2 tok1 htok hD1.p1 hD1.head hD2
          (n + 1) w (c :: cs) hm2
        unfold scanSub at hnew
        rw [hm] at hnew
        dsimp only at hnew
        exact hnew

lemma matcher_digitPat (k : PiiKind) (hk : k ≠ PiiKind.EMAIL) :
    DigitPat k.matcher := by
  cases k with
  | EMAIL => exact absurd rfl hk
  | PHONE => exact digitPat_phone
  | SSN => exact digitPat_ssn
  | CREDIT_CARD => exact digitPat_cc

lemma token_head_lt (k : PiiKind) : (PiiKind.token k).data.head? = some '<' := by
  cases k <;> decide

lemma token_no_digit (k : PiiKind) :
    ∀ ch ∈ (PiiKind.token k).data, ch.isDigit = false := by
  cases k <;> decide

lemma subPattern_self (k : PiiKind) (hk : k ≠ PiiKind.EMAIL) (s : String) :
    noMatch k.matcher false (subPattern k s).1.data :=
  scanSub_self_noMatch k.matcher (PiiKind.token k).data
    (matcher_digitPat k hk) (token_head_lt k) (token_no_digit k)
    s.data.length false s.data (Nat.le_refl _)

lemma piiStep_self (k : PiiKind) (hk : k ≠ PiiKind.EMAIL)
    (acc : String × List String) :
    noMatch k.matcher false (piiStep acc k).1.data := by
  unfold piiStep
  by_cases hr : (subPattern k acc.1).2
  · rw [if_pos hr]
    exact subPattern_self k hk acc.1
  · rw [if_neg hr]
    exact scanSub_false_noMatch k.matcher (PiiKind.token k).data
      ((matcher_digitPat k hk).pos) acc.1.data.length false acc.1.data
      (Nat.le_refl _) (by simpa [subPattern] using hr)

lemma piiStep_pres (k j : PiiKind) (hk : k ≠ PiiKind.EMAIL)
    (hj : j ≠ PiiKind.EMAIL) (acc : String × List String)
    (h : noMatch j.matcher false acc.1.data) :
    noMatch j.matcher false (piiStep acc k).1.data := by
  unfold piiStep
  by_cases hr : (subPattern k acc.1).2
  · rw [if_pos hr]
    exact scanSub_pres_noMatch k.matcher j.matcher (PiiKind.token k).data
      (matcher_digitPat k hk) (matcher_digitPat j hj) (token_head_lt k)
      (token_no_digit k) acc.1.data.length false acc.1.data
      (Nat.le_refl _) h
  · rw [if_neg hr]
    exact h

lemma piiFold_pres (ps : List PiiKind) (hps : ∀ k ∈ ps, k ≠ PiiKind.EMAIL)
    (j : PiiKind) (hj : j ≠ PiiKind.EMAIL) :
    ∀ st, noMatch j.matcher false st.1.data →
      noMatch j.matcher false (ps.foldl piiStep st).1.data := by
  induction ps with
  | nil => intro st h; exact h
  | cons p ps ih =>
    intro st h
    rw [List.foldl_cons]
    exact ih (fun k hk => hps k (List.mem_cons_of_mem p hk)) (piiStep st p)
      (piiStep_pres p j (hps p (List.mem_cons_self p ps)) hj st h)

lemma piiFold_noMatch (pats : List PiiKind)
    (hp : ∀ k ∈ pats, k ≠ PiiKind.EMAIL) :
    ∀ (st : String × List String) (j : PiiKind), j ∈ pats →
      noMatch j.matcher false (pats.foldl piiStep st).1.data := by
  induction pats with
  | nil => intro st j hj; exact absurd hj (List.not_mem_nil j)
  | cons p ps ih =>
    intro st j hj
    rw [List.foldl_cons]
    rcases List.mem_cons.mp hj with he | hm
    · subst he
      exact piiFold_pres ps (fun k hk => hp k (List.mem_cons_of_mem j hk))
        j (hp j hj) (piiStep st j)
        (piiStep_self j (hp j hj) st)
    · exact ih (fun k hk => hp k (List.mem_cons_of_mem p hk)) (piiStep st p) j hm

lemma piiStep_id_of_noMatch (k : PiiKind) (acc : String × List String)
    (h : noMatch k.matcher false acc.1.data) : piiStep acc k = acc := by
  have hid := scanSub_id_of_noMatch k.matcher (PiiKind.token k).data
    acc.1.data.length false acc.1.data h
  unfold piiStep subPattern
  rw [hid]
  simp

lemma piiFold_id_of_noMatch (pats : List PiiKind) :
    ∀ (st : String × List String),
      (∀ k ∈ pats, noMatch k.matcher false st.1.data) →
      pats.foldl piiStep st = st := by
  induction pats with
  | nil => intro st _; rfl
  | cons p ps ih =>
    intro st h
    rw [List.foldl_cons, piiStep_id_of_noMatch p st (h p (List.mem_cons_self p ps))]
    exact ih st (fun k hk => h k (List.mem_cons_of_mem p hk))

/-- C8 counterexample: PII redaction is not idempotent for every
configured pattern order.  With the profile `patterns: [PHONE, EMAIL]`
(both orders are legal configurations of `enabled_keys`), the text
`a@bc.de5551234567` redacts to `<EMAIL_REDACTED>5551234567` in the first
pass — PHONE cannot fire because the digits follow a word character, so
there is no `\b` — but in the second pass the token's closing `>`
provides the missing word boundary and PHONE rewrites the digits. -/
theorem c8_counterexample :
    (piiStage [PiiKind.PHONE, PiiKind.EMAIL] "a@bc.de5551234567").1
      = "<EMAIL_REDACTED>5551234567"
    ∧ (piiStage [PiiKind.PHONE, PiiKind.EMAIL]
        (piiStage [PiiKind.PHONE, PiiKind.EMAIL] "a@bc.de5551234567").1).1
      = "<EMAIL_REDACTED><PHONE_REDACTED>"
    ∧ (piiStage [PiiKind.PHONE, PiiKind.EMAIL]
        (piiStage [PiiKind.PHONE, PiiKind.EMAIL] "a@bc.de5551234567").1).1
      ≠ (piiStage [PiiKind.PHONE, PiiKind.EMAIL] "a@bc.de5551234567").1 := by
  refine ⟨rfl, rfl, ?_⟩
  decide

/-- C8 (amended): PII redaction is idempotent for every input whenever
the configured patterns avoid EMAIL, i.e. use only the `\b`-anchored
digit patterns PHONE, SSN and CREDIT_CARD (in any order): one pass
leaves no match of any enabled pattern, so a second pass rewrites
nothing. -/
theorem c8_amended (pats : List PiiKind) (t : String)
    (hp : PiiKind.EMAIL ∉ pats) :
    (piiStage pats (piiStage pats t).1).1 = (piiStage pats t).1 := by
  have hne : ∀ k ∈ pats, k ≠ PiiKind.EMAIL := fun k hk he => hp (he ▸ hk)
  have hall : ∀ k ∈ pats, noMatch k.matcher false (piiStage pats t).1.data :=
    fun k hk => piiFold_noMatch pats hne (t, []) k hk
  show (pats.foldl piiStep ((piiStage pats t).1, [])).1 = (piiStage pats t).1
  rw [piiFold_id_of_noMatch pats ((piiStage pats t).1, []) hall]

/-- Witness for the amended C8 at a concrete digit-only configuration
and input. -/
theorem c8_witness :
    (piiStage [PiiKind.PHONE, PiiKind.SSN, PiiKind.CREDIT_CARD]
      (piiStage [PiiKind.PHONE, PiiKind.SSN, PiiKind.CREDIT_CARD]
        "ssn 123-45-6789!").1).1
      = (piiStage [PiiKind.PHONE, PiiKind.SSN, PiiKind.CREDIT_CARD]
          "ssn 123-45-6789!").1 :=
  c8_amended [PiiKind.PHONE, PiiKind.SSN, PiiKind.CREDIT_CARD]
    "ssn 123-45-6789!" (by decide)
